import Mathlib

/-!
Shallow embedding of the release-automation scripts of the `hoc` repository
(`scripts/get_version.py`, `scripts/bumb_version.py`, `scripts/changelog_body.py`).

Documents are modelled as `List Char`.  Python string operations used by the
scripts (`str.split` with and without a maxsplit bound, `str.replace` with and
without a count bound, `str.strip`, `str.isdigit`, `int`, `str(int)`) are
embedded as executable functions below.  A fatal outcome (`error(msg)` followed
by `sys.exit(1)`, or an uncaught Python exception) is a `PyErr` value; code
that falls off the end of a function without returning yields `Option.none`,
mirroring Python's implicit `None`.
-/

/-- Fatal outcomes of a script run: `errorExit msg` is the scripts' own
`error(msg)` helper (print to stderr, `sys.exit(1)`); `nameError n` is an
uncaught Python `NameError` for the undefined name `n`; `indexError` is an
uncaught `IndexError`. -/
inductive PyErr where
  | errorExit (msg : String)
  | nameError (name : String)
  | indexError
deriving Repr, DecidableEq

instance {α : Type} [DecidableEq α] : DecidableEq (Except PyErr α) := fun a b =>
  match a, b with
  | .error e, .error f =>
    if h : e = f then .isTrue (by rw [h]) else .isFalse (by intro hc; cases hc; exact h rfl)
  | .ok x, .ok y =>
    if h : x = y then .isTrue (by rw [h]) else .isFalse (by intro hc; cases hc; exact h rfl)
  | .error _, .ok _ => .isFalse (by intro hc; cases hc)
  | .ok _, .error _ => .isFalse (by intro hc; cases hc)

/-- Characters treated as whitespace by Python's `str.strip()` (ASCII part). -/
def pyIsSpace (c : Char) : Bool :=
  c == ' ' || c == '\t' || c == '\n' || c == '\r' || c == '\x0b' || c == '\x0c'

/-- Drop leading and trailing characters satisfying `p`; the common core of
Python's `str.strip()` and `str.strip('"')`. -/
def stripWhile (p : Char → Bool) (s : List Char) : List Char :=
  ((s.dropWhile p).reverse.dropWhile p).reverse

/-- Python `str.strip()` (whitespace on both ends). -/
def pyStrip (s : List Char) : List Char := stripWhile pyIsSpace s

/-- Python `int(s)` on a string of ASCII digits. -/
def parseDigits (s : List Char) : Nat := s.foldl (fun a c => 10 * a + (c.toNat - 48)) 0

/-- Fueled base-10 rendering; `fuel > n` makes the fuel irrelevant. -/
def strOfNatAux : Nat → Nat → List Char
  | 0, _ => []
  | fuel + 1, n =>
    if n < 10 then [Nat.digitChar n]
    else strOfNatAux fuel (n / 10) ++ [Nat.digitChar (n % 10)]

/-- Python `str(n)` for a non-negative integer `n`. -/
def strOfNat (n : Nat) : List Char := strOfNatAux (n + 1) n

/-- Python `s.split(sep, 1)`: one part if `sep` does not occur in `s`,
otherwise the part before the first occurrence and the part after it. -/
def pySplit1 (sep : List Char) : List Char → List (List Char)
  | [] => [[]]
  | c :: rest =>
    if sep ≠ [] ∧ sep.isPrefixOf (c :: rest) then [[], (c :: rest).drop sep.length]
    else
      match pySplit1 sep rest with
      | [] => [[c]]
      | p :: ps => (c :: p) :: ps

/-- Fueled left-to-right non-overlapping occurrence count (Python `s.count(sep)`
scan order, which also drives `split` and `replace`). -/
def pyCountF (old : List Char) : Nat → List Char → Nat
  | _, [] => 0
  | 0, _ => 0
  | fuel + 1, c :: rest =>
    if old ≠ [] ∧ old.isPrefixOf (c :: rest) then
      1 + pyCountF old fuel ((c :: rest).drop old.length)
    else pyCountF old fuel rest

/-- Number of (non-overlapping, left-to-right) occurrences of `old` in `s`. -/
def pyCount (old s : List Char) : Nat := pyCountF old s.length s

/-- Fueled Python `s.split(sep)` (no maxsplit bound). -/
def pySplitAllF (sep : List Char) : Nat → List Char → List (List Char)
  | _, [] => [[]]
  | 0, s => [s]
  | fuel + 1, c :: rest =>
    if sep ≠ [] ∧ sep.isPrefixOf (c :: rest) then
      [] :: pySplitAllF sep fuel ((c :: rest).drop sep.length)
    else
      match pySplitAllF sep fuel rest with
      | [] => [[c]]
      | p :: ps => (c :: p) :: ps

/-- Python `s.split(sep)` without a maxsplit bound. -/
def pySplitAll (sep s : List Char) : List (List Char) := pySplitAllF sep s.length s

/-- Python `s.replace(old, new, 1)`: replace the first occurrence only. -/
def pyReplaceOne (old new : List Char) : List Char → List Char
  | [] => []
  | c :: rest =>
    if old ≠ [] ∧ old.isPrefixOf (c :: rest) then new ++ (c :: rest).drop old.length
    else c :: pyReplaceOne old new rest

/-- Fueled Python `s.replace(old, new)` (all occurrences, scanning left to
right and resuming after each inserted `new`). -/
def pyReplaceAllF (old new : List Char) : Nat → List Char → List Char
  | _, [] => []
  | 0, s => s
  | fuel + 1, c :: rest =>
    if old ≠ [] ∧ old.isPrefixOf (c :: rest) then
      new ++ pyReplaceAllF old new fuel ((c :: rest).drop old.length)
    else c :: pyReplaceAllF old new fuel rest

/-- Python `s.replace(old, new)` without a count bound. -/
def pyReplaceAll (old new s : List Char) : List Char := pyReplaceAllF old new s.length s

/-- The `split(content, sep, desc)` helper shared by `get_version.py` and
`bumb_version.py`: `content.split(sep, 1)`, turning a failure to split into a
fatal error with either the caller's description or the default message. -/
def split (content sep : List Char) (desc : Option String) :
    Except PyErr (List Char × List Char) :=
  match pySplit1 sep content with
  | [a, b] => .ok (a, b)
  | _ =>
    match desc with
    | some d => .error (.errorExit d)
    | none => .error (.errorExit ("\"" ++ String.mk sep ++ "\" separator not found"))

/-- `get_next_version(bump_comp_idx, current_version)` from
`scripts/bumb_version.py`.  Splits on `"."`, requires exactly three non-empty
all-digit components, bumps the selected component and pads with zeros.  On an
invalid version the script enters its error branch, whose f-string mentions
the undefined name `version` and so raises `NameError` before `error` runs; an
out-of-range index raises `IndexError` at the component assignment. -/
def get_next_version (bump_comp_idx : Nat) (current_version : List Char) :
    Except PyErr (List Char) :=
  let components := pySplitAll ['.'] current_version
  let is_int : List Char → Bool := fun c => (!c.isEmpty) && c.all Char.isDigit
  if (components.length == 3) && components.all is_int then
    if bump_comp_idx < components.length then
      let bumped :=
        components.set bump_comp_idx
          (strOfNat (parseDigits (components.getD bump_comp_idx []) + 1))
      let padded := (bumped.take (bump_comp_idx + 1) ++ [['0'], ['0'], ['0']]).take 3
      .ok (List.intercalate ['.'] padded)
    else .error .indexError
  else .error (.nameError "version")

/-- Fueled scan loop of `get_version` (`scripts/get_version.py`): split off one
newline-terminated line at a time after the `[package]` header; skip blank
lines; split each record on its first `=` (fatal if absent); skip records whose
trimmed key is not `version`; return the trimmed, unquoted right-hand side of
the first `version` record.  Falling off the end returns Python `None`. -/
def gvLoopF : Nat → List Char → List Char → Except PyErr (Option (List Char))
  | _, _, [] => .ok none
  | 0, _, _ => .ok none
  | fuel + 1, parsed, c :: rest0 =>
    match split (c :: rest0) ['\n'] none with
    | .error e => .error e
    | .ok (line, rest) =>
      if pyStrip line = [] then gvLoopF fuel (parsed ++ line ++ ['\n']) rest
      else
        match split line ['='] (some "\"version\" key not found") with
        | .error e => .error e
        | .ok (key, rhs) =>
          if pyStrip key ≠ "version".data then
            gvLoopF fuel (parsed ++ key ++ ['='] ++ rhs ++ ['\n']) rest
          else .ok (some (stripWhile (· == '"') (pyStrip rhs)))

/-- The scan loop of `get_version`, with the fuel fixed to the content length. -/
def get_version_loop (parsed content : List Char) : Except PyErr (Option (List Char)) :=
  gvLoopF content.length parsed content

/-- `get_version(content)` from `scripts/get_version.py`: find the first
`[package]` header (fatal if absent), then scan records for the `version` key. -/
def get_version (content : List Char) : Except PyErr (Option (List Char)) :=
  match split content "[package]".data none with
  | .error e => .error e
  | .ok (pre, rest) => get_version_loop (pre ++ "[package]".data) rest

/-- Fueled scan loop of `update_manifest` (`scripts/bumb_version.py`): the same
scan as `gvLoopF`, but accumulating the already-parsed text and, at the
`version` record, rebuilding the document with `key = "new_version"` (a single
space and the quoted bumped version replace everything that followed the first
`=` on that line).  The loop result carries the rewritten document and the new
version; falling off the end returns Python `None` and rewrites nothing. -/
def umLoopF (bump_comp_idx : Nat) :
    Nat → List Char → List Char → Except PyErr (Option (List Char × List Char))
  | _, _, [] => .ok none
  | 0, _, _ => .ok none
  | fuel + 1, parsed, c :: rest0 =>
    match split (c :: rest0) ['\n'] none with
    | .error e => .error e
    | .ok (line, rest) =>
      if pyStrip line = [] then umLoopF bump_comp_idx fuel (parsed ++ line ++ ['\n']) rest
      else
        match split line ['='] (some "\"version\" key not found") with
        | .error e => .error e
        | .ok (key, rhs) =>
          if pyStrip key ≠ "version".data then
            umLoopF bump_comp_idx fuel (parsed ++ key ++ ['='] ++ rhs ++ ['\n']) rest
          else
            match get_next_version bump_comp_idx (stripWhile (· == '"') (pyStrip rhs)) with
            | .error e => .error e
            | .ok new_version =>
              .ok (some
                (parsed ++ key ++ ['='] ++ ([' ', '"'] ++ new_version ++ ['"']) ++ '\n' :: rest,
                 new_version))

/-- The scan loop of `update_manifest`, with the fuel fixed to the content
length. -/
def update_manifest_loop (bump_comp_idx : Nat) (parsed content : List Char) :
    Except PyErr (Option (List Char × List Char)) :=
  umLoopF bump_comp_idx content.length parsed content

/-- Pure text transformation of `update_manifest(bump_comp_idx)` from
`scripts/bumb_version.py` (file I/O split off into `update_manifest_io`):
returns the rewritten document together with the bumped version, or `none`
when no `version` record follows the header (then nothing is written). -/
def update_manifest (bump_comp_idx : Nat) (content : List Char) :
    Except PyErr (Option (List Char × List Char)) :=
  match split content "[package]".data none with
  | .error e => .error e
  | .ok (pre, rest) => update_manifest_loop bump_comp_idx (pre ++ "[package]".data) rest

/-- Pure text transformation of `update_changelog(new_version)` from
`scripts/bumb_version.py` (git invocations, the date stamp and file I/O are
split off into `update_changelog_io`): replace the first `## [Unreleased]`
heading by `## [new_version] - formatted_date`, fail if the original document
was unchanged (no heading) or still contains the heading (several of them),
then reinsert an empty unreleased heading above every occurrence of the new
heading via an unbounded `str.replace`. -/
def update_changelog (new_version formatted_date content : List Char) :
    Except PyErr (List Char) :=
  let header_key := "## [Unreleased]".data
  let replacement := "## [".data ++ new_version ++ "] - ".data ++ formatted_date
  let new_content := pyReplaceOne header_key replacement content
  if content = new_content then
    .error (.errorExit "no unreleased version section found")
  else if new_content ≠ pyReplaceAll header_key replacement new_content then
    .error (.errorExit "multiple unreleased version sections found")
  else
    .ok (pyReplaceAll replacement (header_key ++ "\n\n".data ++ replacement) new_content)

/-- `get_changelog_body(version)` from `scripts/changelog_body.py`, with the
document passed in: split on the literal `## [version]` heading (exactly one
occurrence required), cut the following text at the next `## [`, then require
and drop the remainder of the heading line, returning the stripped body. -/
def get_changelog_body (version content : List Char) : Except PyErr (List Char) :=
  let version_line := "## [".data ++ version ++ "]".data
  let split_content := pySplitAll version_line content
  if split_content.length < 2 then
    .error (.errorExit "version changelog section found")
  else if split_content.length > 2 then
    .error (.errorExit "multiple version changelog sections found")
  else
    let body := pySplit1 "## [".data (split_content.getD 1 [])
    let body_without_title_suffix := pySplit1 "\n".data (body.getD 0 [])
    if body_without_title_suffix.length = 1 then
      .error (.errorExit "invalid changelog format")
    else .ok (pyStrip (body_without_title_suffix.getD 1 []))

/-- The two files touched by a release bump. -/
structure FS where
  manifest : List Char
  changelog : List Char
deriving Repr, DecidableEq

/-- `update_manifest` with its file accesses made explicit: the manifest is
read from `fs`, and written back only in the branch where the in-memory
rewrite succeeded. -/
def update_manifest_io (bump_comp_idx : Nat) (fs : FS) :
    FS × Except PyErr (Option (List Char)) :=
  match update_manifest bump_comp_idx fs.manifest with
  | .error e => (fs, .error e)
  | .ok none => (fs, .ok none)
  | .ok (some (new_doc, new_version)) =>
    ({ fs with manifest := new_doc }, .ok (some new_version))

/-- `update_changelog` with its effects made explicit.  The git preamble is
abstracted by the captured outputs of `git diff` (`diff_stdout`,
`diff_stderr`); a non-empty stderr or an empty diff is fatal before the
changelog is even read.  The changelog is written back only after the
in-memory transformation succeeded. -/
def update_changelog_io (new_version formatted_date diff_stdout diff_stderr : List Char)
    (fs : FS) : FS × Except PyErr Unit :=
  if diff_stderr ≠ [] then (fs, .error (.errorExit (String.mk (pyStrip diff_stderr))))
  else if diff_stdout = [] then
    (fs, .error (.errorExit "no changes have been made to the changelog"))
  else
    match update_changelog new_version formatted_date fs.changelog with
    | .error e => (fs, .error e)
    | .ok new_content => ({ fs with changelog := new_content }, .ok ())

/-- `bump_version(bump_comp_idx)` from `scripts/bumb_version.py`:
`update_manifest` then `update_changelog`, threading the file system state.
When the manifest has no `version` record, Python's `None` flows into the
f-string of `update_changelog` and is rendered as the text `None`. -/
def bump_version_io (bump_comp_idx : Nat)
    (formatted_date diff_stdout diff_stderr : List Char) (fs : FS) :
    FS × Except PyErr (List Char) :=
  match update_manifest_io bump_comp_idx fs with
  | (fs1, .error e) => (fs1, .error e)
  | (fs1, .ok mv) =>
    let new_version := match mv with | some v => v | none => "None".data
    match update_changelog_io new_version formatted_date diff_stdout diff_stderr fs1 with
    | (fs2, .error e) => (fs2, .error e)
    | (fs2, .ok _) => (fs2, .ok new_version)

example : get_version "[package]\nname = \"hoc\"\nversion = \"1.9.3\"\n".data =
    .ok (some "1.9.3".data) := by decide

example : get_next_version 1 "1.9.3".data = .ok "1.10.0".data := by decide

example : update_manifest 0 "[package]\nversion = \"1.9.3\"\nx = 1\n".data =
    .ok (some ("[package]\nversion = \"2.0.0\"\nx = 1\n".data, "2.0.0".data)) := by decide

example : update_changelog "1.2.0".data "2026-10-12".data
    "# L\n\n## [Unreleased]\n\nFixed bug.\n\n## [1.1.0] - 2023-01-01\nOlder.\n".data =
    .ok ("# L\n\n## [Unreleased]\n\n## [1.2.0] - 2026-10-12\n\nFixed bug.\n\n## [1.1.0] - 2023-01-01\nOlder.\n".data) := by decide

example : get_changelog_body "1.2.0".data
    "## [Unreleased]\n\n## [1.2.0] - 2024-01-01\nFixed bug.\n\n## [1.1.0] - 2023-01-01\nOlder.".data =
    .ok "Fixed bug.".data := by decide

/-! Basic facts about prefixes and the scan primitives. -/

theorem take_pre (l : List Char) (n : Nat) : l.take n <+: l := by
  exact List.take_prefix n l

theorem isPrefixOf_eq {l m : List Char} : l.isPrefixOf m = true ↔ l <+: m := by
  exact List.isPrefixOf_iff_prefix

theorem prefix_of_append_of_length_le {l X Z : List Char}
    (h : l <+: X ++ Z) (hl : l.length ≤ X.length) : l <+: X := by
  rw [List.prefix_iff_eq_take] at h ⊢
  rwa [List.take_append_of_le_length hl] at h

theorem prefix_append_cases {p X Z : List Char} (h : p <+: X ++ Z) :
    p <+: X ∨ (X.length < p.length ∧ p.take X.length = X ∧ p.drop X.length <+: Z) := by
  rcases le_or_lt p.length X.length with hle | hlt
  · exact Or.inl (prefix_of_append_of_length_le h hle)
  · refine Or.inr ⟨hlt, ?_, ?_⟩
    · rw [List.prefix_iff_eq_take] at h
      rw [h, List.take_append_eq_append_take, List.take_of_length_le (Nat.le_of_lt hlt),
        List.take_left]
    · rw [List.prefix_iff_eq_take] at h
      rw [h, List.drop_take, List.drop_left]
      exact take_pre Z _

theorem head_eq_of_prefix {l m : List Char} (h : l <+: m) (hl : l ≠ []) :
    ∃ t t', l = m.headI :: t ∧ m = m.headI :: t' ∧ t <+: t' := by
  cases l with
  | nil => exact absurd rfl hl
  | cons a t =>
    cases m with
    | nil => exact absurd (List.eq_nil_of_prefix_nil h) (by simp)
    | cons b t' =>
      rw [List.cons_prefix_cons] at h
      exact ⟨t, t', by simp [h.1, List.headI], rfl, h.2⟩

/-! Digit strings. -/

theorem digitChar_isDigit {n : Nat} (h : n < 10) : (Nat.digitChar n).isDigit = true := by
  interval_cases n <;> decide

theorem digitChar_toNat {n : Nat} (h : n < 10) : (Nat.digitChar n).toNat - 48 = n := by
  interval_cases n <;> decide

theorem strOfNatAux_irrel :
    ∀ f1 f2 n, n < f1 → n < f2 → strOfNatAux f1 n = strOfNatAux f2 n := by
  intro f1
  induction f1 with
  | zero => intro f2 n h1; omega
  | succ g ih =>
    intro f2 n h1 h2
    cases f2 with
    | zero => omega
    | succ h =>
      by_cases hn : n < 10
      · simp [strOfNatAux, hn]
      · have hd : n / 10 < n := Nat.div_lt_self (by omega) (by omega)
        simp only [strOfNatAux, if_neg hn]
        rw [ih h (n / 10) (by omega) (by omega)]

theorem strOfNat_small {n : Nat} (h : n < 10) : strOfNat n = [Nat.digitChar n] := by
  simp [strOfNat, strOfNatAux, h]

theorem strOfNat_large {n : Nat} (h : 10 ≤ n) :
    strOfNat n = strOfNat (n / 10) ++ [Nat.digitChar (n % 10)] := by
  have h1 : strOfNatAux (n + 1) n = strOfNatAux n (n / 10) ++ [Nat.digitChar (n % 10)] := by
    rw [strOfNatAux, if_neg (by omega : ¬ n < 10)]
  rw [strOfNat, h1, strOfNatAux_irrel n (n / 10 + 1) (n / 10)
    (by exact Nat.div_lt_self (by omega) (by omega)) (by omega)]
  rfl

theorem strOfNat_ne_nil (n : Nat) : strOfNat n ≠ [] := by
  by_cases h : n < 10
  · rw [strOfNat_small h]; simp
  · rw [strOfNat_large (by omega)]; simp

theorem strOfNat_all_digit (n : Nat) : ∀ c ∈ strOfNat n, c.isDigit = true := by
  induction n using Nat.strong_induction_on with
  | _ n ih =>
    by_cases h : n < 10
    · rw [strOfNat_small h]
      intro c hc
      rw [List.mem_singleton] at hc
      rw [hc]; exact digitChar_isDigit h
    · rw [strOfNat_large (by omega)]
      intro c hc
      rcases List.mem_append.mp hc with hc | hc
      · exact ih (n / 10) (Nat.div_lt_self (by omega) (by omega)) c hc
      · rw [List.mem_singleton] at hc
        rw [hc]; exact digitChar_isDigit (Nat.mod_lt n (by omega))

theorem parseDigits_append_one (xs : List Char) (c : Char) :
    parseDigits (xs ++ [c]) = 10 * parseDigits xs + (c.toNat - 48) := by
  simp [parseDigits, List.foldl_append]

theorem parseDigits_strOfNat (n : Nat) : parseDigits (strOfNat n) = n := by
  induction n using Nat.strong_induction_on with
  | _ n ih =>
    by_cases h : n < 10
    · rw [strOfNat_small h]
      have : parseDigits [Nat.digitChar n] = (Nat.digitChar n).toNat - 48 := by
        simp [parseDigits]
      rw [this, digitChar_toNat h]
    · rw [strOfNat_large (by omega), parseDigits_append_one,
        ih (n / 10) (Nat.div_lt_self (by omega) (by omega)),
        digitChar_toNat (Nat.mod_lt n (by omega))]
      omega

/-- Characters a digit can never be; used to keep rendered versions out of the
way of separators, quotes and headings. -/
theorem isDigit_not_special {c : Char} (h : c.isDigit = true) :
    c ∉ (['.', '\n', '=', '"', '#', 'U', '-', '[', ']',
          ' ', '\t', '\r', '\x0b', '\x0c'] : List Char) := by
  intro hm
  fin_cases hm <;> exact absurd h (by decide)

theorem isDigit_not_space {c : Char} (h : c.isDigit = true) : pyIsSpace c = false := by
  have hm := isDigit_not_special h
  simp only [List.mem_cons, not_or] at hm
  obtain ⟨-, hn, -, -, -, -, -, -, -, hsp, hts, hcr, hvt, hff, -⟩ := hm
  simp [pyIsSpace, hn, hsp, hts, hcr, hvt, hff]

/-! Stripping. -/

theorem dropWhile_all_false {p : Char → Bool} {s : List Char}
    (h : ∀ c ∈ s, p c = false) : List.dropWhile p s = s := by
  cases s with
  | nil => rfl
  | cons c t => rw [List.dropWhile_cons, if_neg (by simp [h c (by simp)])]

theorem stripWhile_no_strip {p : Char → Bool} {s : List Char}
    (h : ∀ c ∈ s, p c = false) : stripWhile p s = s := by
  rw [stripWhile, dropWhile_all_false h, dropWhile_all_false (by simpa using h),
    List.reverse_reverse]

theorem stripWhile_cons_true {p : Char → Bool} {x : Char} {s : List Char}
    (hx : p x = true) : stripWhile p (x :: s) = stripWhile p s := by
  rw [stripWhile, stripWhile, List.dropWhile_cons, if_pos (by simp [hx])]

theorem stripWhile_ends_false {p : Char → Bool} {x y : Char} {m : List Char}
    (hx : p x = false) (hy : p y = false) :
    stripWhile p (x :: (m ++ [y])) = x :: (m ++ [y]) := by
  rw [stripWhile, List.dropWhile_cons, if_neg (by simp [hx])]
  have h3 : (x :: (m ++ [y])).reverse = y :: (m.reverse ++ [x]) := by simp
  rw [h3, List.dropWhile_cons, if_neg (by simp [hy]), ← h3, List.reverse_reverse]

theorem stripWhile_wrap {p : Char → Bool} {q : Char} {v : List Char}
    (hq : p q = true) (hv : ∀ c ∈ v, p c = false) :
    stripWhile p (q :: (v ++ [q])) = v := by
  rw [stripWhile_cons_true hq]
  cases v with
  | nil => simp [stripWhile, List.dropWhile, hq]
  | cons a t =>
    have h3 : ((a :: t) ++ [q] : List Char).reverse = q :: (a :: t).reverse := by simp
    rw [List.cons_append, stripWhile, List.dropWhile_cons, if_neg (by simp [hv a (by simp)]),
      ← List.cons_append, h3, List.dropWhile_cons, if_pos (by simp [hq]),
      dropWhile_all_false (fun c hc => hv c (List.mem_reverse.mp hc)), List.reverse_reverse]

theorem pyStrip_space_quote (v : List Char) :
    pyStrip ([' ', '"'] ++ v ++ ['"']) = ['"'] ++ v ++ ['"'] := by
  have he : ([' ', '"'] ++ v ++ ['"'] : List Char) = ' ' :: ('"' :: (v ++ ['"'])) := by simp
  rw [pyStrip, he, stripWhile_cons_true (by decide),
    stripWhile_ends_false (by decide) (by decide)]
  simp

theorem stripWhile_eq_nil_iff {p : Char → Bool} {s : List Char} :
    stripWhile p s = [] ↔ ∀ c ∈ s, p c = true := by
  constructor
  · intro h c hc
    have hd : ∀ x ∈ List.dropWhile p s, p x = true := by
      intro x hx
      have h2 : List.dropWhile p ((List.dropWhile p s).reverse) = [] := by
        have h3 := congrArg List.reverse h
        simpa [stripWhile] using h3
      rw [List.dropWhile_eq_nil_iff] at h2
      exact h2 x (by simpa using hx)
    have hs : c ∈ List.takeWhile p s ++ List.dropWhile p s := by
      rw [List.takeWhile_append_dropWhile]
      exact hc
    rcases List.mem_append.mp hs with ht | hdm
    · exact List.mem_takeWhile_imp ht
    · exact hd c hdm
  · intro h
    rw [stripWhile, List.dropWhile_eq_nil_iff.mpr h]
    rfl

/-! First-occurrence scanning. -/

/-- No occurrence of `sep` starts strictly inside `A` when `A` is immediately
followed by `sep`: the scan predicate extracted from `pySplit1`/`pyCount`. -/
def noMatchBefore (sep A : List Char) : Prop :=
  ∀ A1 A2 : List Char, A = A1 ++ A2 → A2 ≠ [] → ¬ sep <+: A2 ++ sep

theorem eq_append_of_pre {l m : List Char} (h : l <+: m) : m = l ++ m.drop l.length := by
  rw [List.prefix_iff_eq_take] at h
  conv_lhs => rw [← List.take_append_drop l.length m]
  rw [← h]

theorem noMatchBefore_nil (sep : List Char) : noMatchBefore sep [] := by
  intro A1 A2 hA hne
  exact absurd (List.append_eq_nil.mp hA.symm).2 hne

theorem noMatchBefore_cons {sep : List Char} {a : Char} {A : List Char}
    (h : noMatchBefore sep (a :: A)) : noMatchBefore sep A := by
  intro A1 A2 hA hne
  exact h (a :: A1) A2 (by simp [hA]) hne

theorem noMatchBefore_char {c : Char} {A : List Char} (h : c ∉ A) :
    noMatchBefore [c] A := by
  intro A1 A2 hA hne hp
  cases A2 with
  | nil => exact hne rfl
  | cons d t =>
    rw [List.cons_append, List.cons_prefix_cons] at hp
    exact h (by rw [hA]; exact List.mem_append.mpr (Or.inr (by simp [hp.1])))

theorem not_mem_of_noMatchBefore_char {c : Char} {A : List Char}
    (h : noMatchBefore [c] A) : c ∉ A := by
  intro hc
  rcases List.append_of_mem hc with ⟨A1, A2, rfl⟩
  exact h A1 (c :: A2) rfl (by simp) (by simp)

theorem pySplit1_ne_nil (sep : List Char) : ∀ s, pySplit1 sep s ≠ [] := by
  intro s
  induction s with
  | nil => simp [pySplit1]
  | cons c rest ih =>
    rw [pySplit1]
    by_cases h : sep ≠ [] ∧ sep.isPrefixOf (c :: rest)
    · simp [h]
    · rw [if_neg h]
      rcases hr : pySplit1 sep rest with _ | ⟨p, ps⟩
      · exact absurd hr ih
      · simp

theorem pySplit1_one {sep s a : List Char} (h : pySplit1 sep s = [a]) : a = s := by
  induction s generalizing a with
  | nil => simpa [pySplit1] using h.symm
  | cons c rest ih =>
    rw [pySplit1] at h
    by_cases hc : sep ≠ [] ∧ sep.isPrefixOf (c :: rest)
    · rw [if_pos hc] at h
      exact absurd h (by simp)
    · rw [if_neg hc] at h
      rcases hr : pySplit1 sep rest with _ | ⟨p, ps⟩
      · exact absurd hr (pySplit1_ne_nil sep rest)
      · rw [hr] at h
        simp only [List.cons.injEq] at h
        rw [← h.1, ih (a := p) (by rw [hr, h.2])]

theorem pySplit1_two {sep s a b : List Char} (h : pySplit1 sep s = [a, b]) :
    sep ≠ [] ∧ s = a ++ sep ++ b ∧ noMatchBefore sep a := by
  induction s generalizing a b with
  | nil => exact absurd h (by simp [pySplit1])
  | cons c rest ih =>
    rw [pySplit1] at h
    by_cases hc : sep ≠ [] ∧ sep.isPrefixOf (c :: rest)
    · rw [if_pos hc] at h
      simp only [List.cons.injEq] at h
      obtain ⟨ha, hb, -⟩ := h
      refine ⟨hc.1, ?_, by rw [← ha]; exact noMatchBefore_nil sep⟩
      rw [← ha, List.nil_append, ← hb]
      exact eq_append_of_pre (isPrefixOf_eq.mp hc.2)
    · rw [if_neg hc] at h
      rcases hr : pySplit1 sep rest with _ | ⟨p, ps⟩
      · exact absurd hr (pySplit1_ne_nil sep rest)
      · rw [hr] at h
        simp only [List.cons.injEq] at h
        obtain ⟨ha, hps⟩ := h
        have hrest : pySplit1 sep rest = [p, b] := by rw [hr, hps]
        obtain ⟨hsep, hreq, hnm⟩ := ih hrest
        refine ⟨hsep, by rw [← ha, hreq]; simp, ?_⟩
        rw [← ha]
        intro A1 A2 hA hne hp
        cases A1 with
        | nil =>
          simp only [List.nil_append] at hA
          have hnp : ¬ sep <+: (c :: rest) := fun hpre => hc ⟨hsep, isPrefixOf_eq.mpr hpre⟩
          apply hnp
          rw [← hA] at hp
          have h2 : (c :: p) ++ sep <+: ((c :: p) ++ sep) ++ b := List.prefix_append _ _
          have h3 : sep <+: ((c :: p) ++ sep) ++ b := hp.trans h2
          rw [hreq]
          simpa using h3
        | cons a1 A1' =>
          simp only [List.cons_append, List.cons.injEq] at hA
          exact hnm A1' A2 hA.2 hne hp

theorem pySplit1_reconstruct {sep A B : List Char} (hsep : sep ≠ [])
    (hA : noMatchBefore sep A) : pySplit1 sep (A ++ sep ++ B) = [A, B] := by
  induction A with
  | nil =>
    simp only [List.nil_append]
    cases sep with
    | nil => exact absurd rfl hsep
    | cons c0 sept =>
      rw [List.cons_append, pySplit1,
        if_pos ⟨hsep, by rw [← List.cons_append]; exact isPrefixOf_eq.mpr (List.prefix_append _ _)⟩]
      rw [← List.cons_append, List.drop_left]
  | cons a A' ih =>
    have hnp : ¬ (sep ≠ [] ∧ sep.isPrefixOf (a :: (A' ++ sep ++ B))) := by
      rintro ⟨-, hp⟩
      rw [isPrefixOf_eq] at hp
      have h1 : sep <+: ((a :: A') ++ sep) ++ B := by simpa using hp
      have h2 : sep <+: (a :: A') ++ sep :=
        prefix_of_append_of_length_le h1 (by simp; omega)
      exact hA [] (a :: A') rfl (by simp) h2
    rw [show (a :: A') ++ sep ++ B = a :: (A' ++ sep ++ B) by simp, pySplit1, if_neg hnp,
      ih (noMatchBefore_cons hA)]

/-! Fuel irrelevance and step equations for the fueled scanners. -/

theorem drop_length_le {old : List Char} (hne : old ≠ []) (c : Char) (rest : List Char) :
    ((c :: rest).drop old.length).length ≤ rest.length := by
  rw [List.length_drop]
  cases old with
  | nil => exact absurd rfl hne
  | cons _ _ => simp

theorem pyCountF_irrel (old : List Char) :
    ∀ f1 f2 s, s.length ≤ f1 → s.length ≤ f2 → pyCountF old f1 s = pyCountF old f2 s := by
  intro f1
  induction f1 with
  | zero =>
    intro f2 s h1 _
    have hs : s = [] := List.eq_nil_of_length_eq_zero (Nat.le_zero.mp h1)
    subst hs
    simp [pyCountF]
  | succ g ih =>
    intro f2 s h1 h2
    cases s with
    | nil => simp [pyCountF]
    | cons c rest =>
      cases f2 with
      | zero => simp at h2
      | succ g2 =>
        rw [pyCountF, pyCountF]
        by_cases hc : old ≠ [] ∧ old.isPrefixOf (c :: rest)
        · rw [if_pos hc, if_pos hc,
            ih g2 _ ((drop_length_le hc.1 c rest).trans (by simpa using h1))
              ((drop_length_le hc.1 c rest).trans (by simpa using h2))]
        · rw [if_neg hc, if_neg hc, ih g2 rest (by simpa using h1) (by simpa using h2)]

theorem pySplitAllF_irrel (sep : List Char) :
    ∀ f1 f2 s, s.length ≤ f1 → s.length ≤ f2 → pySplitAllF sep f1 s = pySplitAllF sep f2 s := by
  intro f1
  induction f1 with
  | zero =>
    intro f2 s h1 _
    have hs : s = [] := List.eq_nil_of_length_eq_zero (Nat.le_zero.mp h1)
    subst hs
    simp [pySplitAllF]
  | succ g ih =>
    intro f2 s h1 h2
    cases s with
    | nil => simp [pySplitAllF]
    | cons c rest =>
      cases f2 with
      | zero => simp at h2
      | succ g2 =>
        rw [pySplitAllF, pySplitAllF]
        by_cases hc : sep ≠ [] ∧ sep.isPrefixOf (c :: rest)
        · rw [if_pos hc, if_pos hc,
            ih g2 _ ((drop_length_le hc.1 c rest).trans (by simpa using h1))
              ((drop_length_le hc.1 c rest).trans (by simpa using h2))]
        · rw [if_neg hc, if_neg hc, ih g2 rest (by simpa using h1) (by simpa using h2)]

theorem pyReplaceAllF_irrel (old new : List Char) :
    ∀ f1 f2 s, s.length ≤ f1 → s.length ≤ f2 →
      pyReplaceAllF old new f1 s = pyReplaceAllF old new f2 s := by
  intro f1
  induction f1 with
  | zero =>
    intro f2 s h1 _
    have hs : s = [] := List.eq_nil_of_length_eq_zero (Nat.le_zero.mp h1)
    subst hs
    simp [pyReplaceAllF]
  | succ g ih =>
    intro f2 s h1 h2
    cases s with
    | nil => simp [pyReplaceAllF]
    | cons c rest =>
      cases f2 with
      | zero => simp at h2
      | succ g2 =>
        rw [pyReplaceAllF, pyReplaceAllF]
        by_cases hc : old ≠ [] ∧ old.isPrefixOf (c :: rest)
        · rw [if_pos hc, if_pos hc,
            ih g2 _ ((drop_length_le hc.1 c rest).trans (by simpa using h1))
              ((drop_length_le hc.1 c rest).trans (by simpa using h2))]
        · rw [if_neg hc, if_neg hc, ih g2 rest (by simpa using h1) (by simpa using h2)]

theorem pyCount_nil (old : List Char) : pyCount old [] = 0 := rfl

theorem pyCount_cons_pos {old : List Char} {c : Char} {rest : List Char}
    (h : old ≠ [] ∧ old.isPrefixOf (c :: rest)) :
    pyCount old (c :: rest) = 1 + pyCount old ((c :: rest).drop old.length) := by
  rw [pyCount, show (c :: rest).length = rest.length + 1 from rfl, pyCountF, if_pos h, pyCount,
    pyCountF_irrel old rest.length ((c :: rest).drop old.length).length _
      (drop_length_le h.1 c rest) (le_refl _)]

theorem pyCount_cons_neg {old : List Char} {c : Char} {rest : List Char}
    (h : ¬ (old ≠ [] ∧ old.isPrefixOf (c :: rest))) :
    pyCount old (c :: rest) = pyCount old rest := by
  rw [pyCount, show (c :: rest).length = rest.length + 1 from rfl, pyCountF, if_neg h]
  rfl

theorem pySplitAll_nil (sep : List Char) : pySplitAll sep [] = [[]] := rfl

theorem pySplitAll_cons_pos {sep : List Char} {c : Char} {rest : List Char}
    (h : sep ≠ [] ∧ sep.isPrefixOf (c :: rest)) :
    pySplitAll sep (c :: rest) = [] :: pySplitAll sep ((c :: rest).drop sep.length) := by
  rw [pySplitAll, show (c :: rest).length = rest.length + 1 from rfl, pySplitAllF, if_pos h,
    pySplitAll, pySplitAllF_irrel sep rest.length ((c :: rest).drop sep.length).length _
      (drop_length_le h.1 c rest) (le_refl _)]

theorem pySplitAll_cons_neg {sep : List Char} {c : Char} {rest : List Char}
    (h : ¬ (sep ≠ [] ∧ sep.isPrefixOf (c :: rest))) :
    pySplitAll sep (c :: rest) =
      match pySplitAll sep rest with
      | [] => [[c]]
      | p :: ps => (c :: p) :: ps := by
  rw [pySplitAll, show (c :: rest).length = rest.length + 1 from rfl, pySplitAllF, if_neg h]
  rfl

theorem pyReplaceAll_nil (old new : List Char) : pyReplaceAll old new [] = [] := rfl

theorem pyReplaceAll_cons_pos {old : List Char} (new : List Char) {c : Char} {rest : List Char}
    (h : old ≠ [] ∧ old.isPrefixOf (c :: rest)) :
    pyReplaceAll old new (c :: rest) =
      new ++ pyReplaceAll old new ((c :: rest).drop old.length) := by
  rw [pyReplaceAll, show (c :: rest).length = rest.length + 1 from rfl, pyReplaceAllF, if_pos h,
    pyReplaceAll, pyReplaceAllF_irrel old new rest.length ((c :: rest).drop old.length).length _
      (drop_length_le h.1 c rest) (le_refl _)]

theorem pyReplaceAll_cons_neg {old : List Char} (new : List Char) {c : Char} {rest : List Char}
    (h : ¬ (old ≠ [] ∧ old.isPrefixOf (c :: rest))) :
    pyReplaceAll old new (c :: rest) = c :: pyReplaceAll old new rest := by
  rw [pyReplaceAll, show (c :: rest).length = rest.length + 1 from rfl, pyReplaceAllF, if_neg h]
  rfl

theorem pySplit1_shape (sep s : List Char) :
    (∃ a, pySplit1 sep s = [a]) ∨ (∃ a b, pySplit1 sep s = [a, b]) := by
  induction s with
  | nil => exact Or.inl ⟨[], rfl⟩
  | cons c rest ih =>
    rw [pySplit1]
    by_cases hc : sep ≠ [] ∧ sep.isPrefixOf (c :: rest)
    · rw [if_pos hc]
      exact Or.inr ⟨[], _, rfl⟩
    · rw [if_neg hc]
      rcases ih with ⟨a, ha⟩ | ⟨a, b, hab⟩
      · rw [ha]
        exact Or.inl ⟨c :: a, rfl⟩
      · rw [hab]
        exact Or.inr ⟨c :: a, b, rfl⟩

theorem split_of_two {content sep a b : List Char} {d : Option String}
    (h : pySplit1 sep content = [a, b]) : split content sep d = .ok (a, b) := by
  rw [split.eq_def, h]

theorem split_ok_inv {content sep : List Char} {d : Option String} {a b : List Char}
    (h : split content sep d = .ok (a, b)) : pySplit1 sep content = [a, b] := by
  rcases pySplit1_shape sep content with ⟨x, hx⟩ | ⟨x, y, hxy⟩
  · rw [split.eq_def, hx] at h
    cases d <;> simp at h
  · rw [split.eq_def, hxy] at h
    simp only [Except.ok.injEq, Prod.mk.injEq] at h
    rw [hxy, h.1, h.2]

theorem split_of_one_none {content sep a : List Char}
    (h : pySplit1 sep content = [a]) :
    split content sep none =
      .error (.errorExit ("\"" ++ String.mk sep ++ "\" separator not found")) := by
  rw [split.eq_def, h]

theorem split_of_one_some {content sep a : List Char} {dd : String}
    (h : pySplit1 sep content = [a]) :
    split content sep (some dd) = .error (.errorExit dd) := by
  rw [split.eq_def, h]

theorem split_two_len {sep : List Char} {c : Char} {rest0 line rest : List Char}
    (h : pySplit1 sep (c :: rest0) = [line, rest]) : rest.length ≤ rest0.length := by
  obtain ⟨hsep, heq, -⟩ := pySplit1_two h
  have hl := congrArg List.length heq
  have hsl : 1 ≤ sep.length := by
    cases sep with
    | nil => exact absurd rfl hsep
    | cons _ _ => simp
  simp at hl
  omega

theorem gvLoopF_irrel :
    ∀ f1 f2 parsed content, content.length ≤ f1 → content.length ≤ f2 →
      gvLoopF f1 parsed content = gvLoopF f2 parsed content := by
  intro f1
  induction f1 with
  | zero =>
    intro f2 parsed content h1 _
    have hs : content = [] := List.eq_nil_of_length_eq_zero (Nat.le_zero.mp h1)
    subst hs
    simp [gvLoopF]
  | succ g ih =>
    intro f2 parsed content h1 h2
    cases content with
    | nil => simp [gvLoopF]
    | cons c rest0 =>
      cases f2 with
      | zero => simp at h2
      | succ g2 =>
        rw [gvLoopF, gvLoopF]
        cases hsp : split (c :: rest0) ['\n'] none with
        | error e => rfl
        | ok lr =>
          obtain ⟨line, rest⟩ := lr
          have hrl : rest.length ≤ rest0.length := split_two_len (split_ok_inv hsp)
          simp only
          by_cases hb : pyStrip line = []
          · rw [if_pos hb, if_pos hb]
            exact ih g2 _ rest (by simp at h1; omega) (by simp at h2; omega)
          · rw [if_neg hb, if_neg hb]
            cases hsp2 : split line ['='] (some "\"version\" key not found") with
            | error e => rfl
            | ok kr =>
              obtain ⟨key, rhs⟩ := kr
              simp only
              by_cases hk : pyStrip key ≠ "version".data
              · rw [if_pos hk, if_pos hk]
                exact ih g2 _ rest (by simp at h1; omega) (by simp at h2; omega)
              · rw [if_neg hk, if_neg hk]

theorem umLoopF_irrel (i : Nat) :
    ∀ f1 f2 parsed content, content.length ≤ f1 → content.length ≤ f2 →
      umLoopF i f1 parsed content = umLoopF i f2 parsed content := by
  intro f1
  induction f1 with
  | zero =>
    intro f2 parsed content h1 _
    have hs : content = [] := List.eq_nil_of_length_eq_zero (Nat.le_zero.mp h1)
    subst hs
    simp [umLoopF]
  | succ g ih =>
    intro f2 parsed content h1 h2
    cases content with
    | nil => simp [umLoopF]
    | cons c rest0 =>
      cases f2 with
      | zero => simp at h2
      | succ g2 =>
        rw [umLoopF, umLoopF]
        cases hsp : split (c :: rest0) ['\n'] none with
        | error e => rfl
        | ok lr =>
          obtain ⟨line, rest⟩ := lr
          have hrl : rest.length ≤ rest0.length := split_two_len (split_ok_inv hsp)
          simp only
          by_cases hb : pyStrip line = []
          · rw [if_pos hb, if_pos hb]
            exact ih g2 _ rest (by simp at h1; omega) (by simp at h2; omega)
          · rw [if_neg hb, if_neg hb]
            cases hsp2 : split line ['='] (some "\"version\" key not found") with
            | error e => rfl
            | ok kr =>
              obtain ⟨key, rhs⟩ := kr
              simp only
              by_cases hk : pyStrip key ≠ "version".data
              · rw [if_pos hk, if_pos hk]
                exact ih g2 _ rest (by simp at h1; omega) (by simp at h2; omega)
              · rw [if_neg hk, if_neg hk]

/-! Single-step characterisations of the two scan loops. -/

theorem gv_step_blank {parsed line rest : List Char} {c : Char} {rest0 : List Char}
    (hsp : pySplit1 ['\n'] (c :: rest0) = [line, rest]) (hb : pyStrip line = []) :
    get_version_loop parsed (c :: rest0) = get_version_loop (parsed ++ line ++ ['\n']) rest := by
  have hrl := split_two_len hsp
  rw [show get_version_loop parsed (c :: rest0) =
      gvLoopF (rest0.length + 1) parsed (c :: rest0) from rfl, gvLoopF,
    split_of_two (d := none) hsp]
  simp only
  rw [if_pos hb]
  exact gvLoopF_irrel rest0.length rest.length _ rest hrl (le_refl _)

theorem gv_step_skip {parsed line rest key rhs : List Char} {c : Char} {rest0 : List Char}
    (hsp : pySplit1 ['\n'] (c :: rest0) = [line, rest]) (hb : pyStrip line ≠ [])
    (hsp2 : pySplit1 ['='] line = [key, rhs]) (hk : pyStrip key ≠ "version".data) :
    get_version_loop parsed (c :: rest0) =
      get_version_loop (parsed ++ key ++ ['='] ++ rhs ++ ['\n']) rest := by
  have hrl := split_two_len hsp
  rw [show get_version_loop parsed (c :: rest0) =
      gvLoopF (rest0.length + 1) parsed (c :: rest0) from rfl, gvLoopF,
    split_of_two (d := none) hsp]
  simp only
  rw [if_neg (by simpa using hb), split_of_two (d := some "\"version\" key not found") hsp2]
  simp only
  rw [if_pos hk]
  exact gvLoopF_irrel rest0.length rest.length _ rest hrl (le_refl _)

theorem gv_step_found {parsed line rest key rhs : List Char} {c : Char} {rest0 : List Char}
    (hsp : pySplit1 ['\n'] (c :: rest0) = [line, rest]) (hb : pyStrip line ≠ [])
    (hsp2 : pySplit1 ['='] line = [key, rhs]) (hk : pyStrip key = "version".data) :
    get_version_loop parsed (c :: rest0) =
      .ok (some (stripWhile (· == '"') (pyStrip rhs))) := by
  rw [show get_version_loop parsed (c :: rest0) =
      gvLoopF (rest0.length + 1) parsed (c :: rest0) from rfl, gvLoopF,
    split_of_two (d := none) hsp]
  simp only
  rw [if_neg (by simpa using hb), split_of_two (d := some "\"version\" key not found") hsp2]
  simp only
  rw [if_neg (by simpa using hk)]

theorem gv_step_nl_err {parsed a : List Char} {c : Char} {rest0 : List Char}
    (hsp : pySplit1 ['\n'] (c :: rest0) = [a]) :
    get_version_loop parsed (c :: rest0) =
      .error (.errorExit ("\"" ++ String.mk ['\n'] ++ "\" separator not found")) := by
  rw [show get_version_loop parsed (c :: rest0) =
      gvLoopF (rest0.length + 1) parsed (c :: rest0) from rfl, gvLoopF,
    split_of_one_none hsp]

theorem gv_step_eq_err {parsed line rest a : List Char} {c : Char} {rest0 : List Char}
    (hsp : pySplit1 ['\n'] (c :: rest0) = [line, rest]) (hb : pyStrip line ≠ [])
    (hsp2 : pySplit1 ['='] line = [a]) :
    get_version_loop parsed (c :: rest0) =
      .error (.errorExit "\"version\" key not found") := by
  rw [show get_version_loop parsed (c :: rest0) =
      gvLoopF (rest0.length + 1) parsed (c :: rest0) from rfl, gvLoopF,
    split_of_two (d := none) hsp]
  simp only
  rw [if_neg (by simpa using hb), split_of_one_some hsp2]

theorem um_step_blank {i : Nat} {parsed line rest : List Char} {c : Char} {rest0 : List Char}
    (hsp : pySplit1 ['\n'] (c :: rest0) = [line, rest]) (hb : pyStrip line = []) :
    update_manifest_loop i parsed (c :: rest0) =
      update_manifest_loop i (parsed ++ line ++ ['\n']) rest := by
  have hrl := split_two_len hsp
  rw [show update_manifest_loop i parsed (c :: rest0) =
      umLoopF i (rest0.length + 1) parsed (c :: rest0) from rfl, umLoopF,
    split_of_two (d := none) hsp]
  simp only
  rw [if_pos hb]
  exact umLoopF_irrel i rest0.length rest.length _ rest hrl (le_refl _)

theorem um_step_skip {i : Nat} {parsed line rest key rhs : List Char} {c : Char}
    {rest0 : List Char}
    (hsp : pySplit1 ['\n'] (c :: rest0) = [line, rest]) (hb : pyStrip line ≠ [])
    (hsp2 : pySplit1 ['='] line = [key, rhs]) (hk : pyStrip key ≠ "version".data) :
    update_manifest_loop i parsed (c :: rest0) =
      update_manifest_loop i (parsed ++ key ++ ['='] ++ rhs ++ ['\n']) rest := by
  have hrl := split_two_len hsp
  rw [show update_manifest_loop i parsed (c :: rest0) =
      umLoopF i (rest0.length + 1) parsed (c :: rest0) from rfl, umLoopF,
    split_of_two (d := none) hsp]
  simp only
  rw [if_neg (by simpa using hb), split_of_two (d := some "\"version\" key not found") hsp2]
  simp only
  rw [if_pos hk]
  exact umLoopF_irrel i rest0.length rest.length _ rest hrl (le_refl _)

theorem um_step_found {i : Nat} {parsed line rest key rhs : List Char} {c : Char}
    {rest0 : List Char}
    (hsp : pySplit1 ['\n'] (c :: rest0) = [line, rest]) (hb : pyStrip line ≠ [])
    (hsp2 : pySplit1 ['='] line = [key, rhs]) (hk : pyStrip key = "version".data) :
    update_manifest_loop i parsed (c :: rest0) =
      match get_next_version i (stripWhile (· == '"') (pyStrip rhs)) with
      | .error e => .error e
      | .ok new_version =>
        .ok (some
          (parsed ++ key ++ ['='] ++ ([' ', '"'] ++ new_version ++ ['"']) ++ '\n' :: rest,
           new_version)) := by
  rw [show update_manifest_loop i parsed (c :: rest0) =
      umLoopF i (rest0.length + 1) parsed (c :: rest0) from rfl, umLoopF,
    split_of_two (d := none) hsp]
  simp only
  rw [if_neg (by simpa using hb), split_of_two (d := some "\"version\" key not found") hsp2]
  simp only
  rw [if_neg (by simpa using hk)]

theorem um_step_nl_err {i : Nat} {parsed a : List Char} {c : Char} {rest0 : List Char}
    (hsp : pySplit1 ['\n'] (c :: rest0) = [a]) :
    update_manifest_loop i parsed (c :: rest0) =
      .error (.errorExit ("\"" ++ String.mk ['\n'] ++ "\" separator not found")) := by
  rw [show update_manifest_loop i parsed (c :: rest0) =
      umLoopF i (rest0.length + 1) parsed (c :: rest0) from rfl, umLoopF,
    split_of_one_none hsp]

theorem um_step_eq_err {i : Nat} {parsed line rest a : List Char} {c : Char} {rest0 : List Char}
    (hsp : pySplit1 ['\n'] (c :: rest0) = [line, rest]) (hb : pyStrip line ≠ [])
    (hsp2 : pySplit1 ['='] line = [a]) :
    update_manifest_loop i parsed (c :: rest0) =
      .error (.errorExit "\"version\" key not found") := by
  rw [show update_manifest_loop i parsed (c :: rest0) =
      umLoopF i (rest0.length + 1) parsed (c :: rest0) from rfl, umLoopF,
    split_of_two (d := none) hsp]
  simp only
  rw [if_neg (by simpa using hb), split_of_one_some hsp2]

/-! Splitting a version string on dots, and the bump computation. -/

theorem single_pre_iff {c d : Char} {l : List Char} : [c] <+: d :: l ↔ c = d := by
  constructor
  · intro h
    rw [List.cons_prefix_cons] at h
    exact h.1
  · rintro rfl
    exact ⟨l, rfl⟩

theorem pySplitAll_char_no {c : Char} {a : List Char} (h : c ∉ a) : pySplitAll [c] a = [a] := by
  induction a with
  | nil => rfl
  | cons d rest ih =>
    rw [pySplitAll_cons_neg (by
      rintro ⟨-, hp⟩
      rw [isPrefixOf_eq, single_pre_iff] at hp
      exact h (by simp [hp]))]
    rw [ih (fun hm => h (by simp [hm]))]

theorem pySplitAll_char_cons {c : Char} {a b : List Char} (h : c ∉ a) :
    pySplitAll [c] (a ++ c :: b) = a :: pySplitAll [c] b := by
  induction a with
  | nil =>
    rw [List.nil_append, pySplitAll_cons_pos ⟨by simp, isPrefixOf_eq.mpr ⟨b, rfl⟩⟩]
    rfl
  | cons d a' ih =>
    rw [List.cons_append, pySplitAll_cons_neg (by
      rintro ⟨-, hp⟩
      rw [isPrefixOf_eq, single_pre_iff] at hp
      exact h (by simp [hp]))]
    rw [ih (fun hm => h (by simp [hm]))]

theorem pySplitAll_three {s0 s1 s2 : List Char} (h0 : '.' ∉ s0) (h1 : '.' ∉ s1)
    (h2 : '.' ∉ s2) :
    pySplitAll ['.'] (s0 ++ '.' :: (s1 ++ '.' :: s2)) = [s0, s1, s2] := by
  rw [pySplitAll_char_cons h0, pySplitAll_char_cons h1, pySplitAll_char_no h2]

theorem intercalate_three (x y z : List Char) :
    List.intercalate ['.'] [x, y, z] = x ++ '.' :: (y ++ '.' :: z) := by
  simp [List.intercalate, List.intersperse]

theorem all_digit_no_dot {s : List Char} (h : ∀ c ∈ s, c.isDigit = true) : '.' ∉ s := by
  intro hm
  exact absurd (h '.' hm) (by decide)

theorem digit_dot_not_mem {r : List Char} (h : ∀ c ∈ r, c.isDigit = true ∨ c = '.')
    {d : Char} (hd1 : d.isDigit = false) (hd2 : d ≠ '.') : d ∉ r := by
  intro hm
  rcases h d hm with h1 | h1
  · rw [hd1] at h1
    exact absurd h1 (by simp)
  · exact hd2 h1

theorem is_int_true {s : List Char} (hne : s ≠ []) (hd : ∀ c ∈ s, c.isDigit = true) :
    ((!s.isEmpty) && s.all Char.isDigit) = true := by
  rw [Bool.and_eq_true]
  constructor
  · simp [List.isEmpty_iff, hne]
  · rw [List.all_eq_true]
    exact hd

theorem zero_comp_ok : (['0'] : List Char) ≠ [] ∧ ∀ c ∈ (['0'] : List Char), c.isDigit = true := by
  refine ⟨by simp, ?_⟩
  intro c hc
  rw [List.mem_singleton] at hc
  rw [hc]
  decide

/-- Result of `get_next_version` on a well-formed three-component version,
expressed through the bumped component list. -/
theorem get_next_version_valid {s0 s1 s2 : List Char} {i : Nat} (hi : i < 3)
    (h0 : s0 ≠ [] ∧ ∀ c ∈ s0, c.isDigit = true)
    (h1 : s1 ≠ [] ∧ ∀ c ∈ s1, c.isDigit = true)
    (h2 : s2 ≠ [] ∧ ∀ c ∈ s2, c.isDigit = true) :
    get_next_version i (s0 ++ '.' :: (s1 ++ '.' :: s2)) =
      .ok (List.intercalate ['.']
        ((([s0, s1, s2].set i
            (strOfNat (parseDigits ([s0, s1, s2].getD i []) + 1))).take (i + 1) ++
          [['0'], ['0'], ['0']]).take 3)) := by
  rw [get_next_version]
  simp only [pySplitAll_three (all_digit_no_dot h0.2) (all_digit_no_dot h1.2)
    (all_digit_no_dot h2.2)]
  rw [if_pos (by
    simp only [List.all_cons, List.all_nil, Bool.and_true]
    rw [is_int_true h0.1 h0.2, is_int_true h1.1 h1.2, is_int_true h2.1 h2.2]
    rfl)]
  rw [if_pos (by simpa using hi)]

/-- Shape of any successful `get_next_version` result: three non-empty all-digit
components joined by dots. -/
theorem get_next_version_ok_shape {i : Nat} {v r : List Char}
    (h : get_next_version i v = .ok r) :
    ∃ p0 p1 p2 : List Char, r = p0 ++ '.' :: (p1 ++ '.' :: p2) ∧
      (p0 ≠ [] ∧ ∀ c ∈ p0, c.isDigit = true) ∧
      (p1 ≠ [] ∧ ∀ c ∈ p1, c.isDigit = true) ∧
      (p2 ≠ [] ∧ ∀ c ∈ p2, c.isDigit = true) := by
  rw [get_next_version] at h
  by_cases hcond : (((pySplitAll ['.'] v).length == 3) &&
      (pySplitAll ['.'] v).all (fun c => (!c.isEmpty) && c.all Char.isDigit)) = true
  · rw [if_pos hcond] at h
    have h3 : (pySplitAll ['.'] v).length = 3 := by
      have hb := (Bool.and_eq_true _ _).mp hcond
      simpa using hb.1
    obtain ⟨c0, c1, c2, hc⟩ := List.length_eq_three.mp h3
    have hall : ∀ x ∈ pySplitAll ['.'] v, x ≠ [] ∧ ∀ ch ∈ x, ch.isDigit = true := by
      intro x hx
      have hb := (Bool.and_eq_true _ _).mp hcond
      have hx2 := List.all_eq_true.mp hb.2 x hx
      have hx3 := (Bool.and_eq_true _ _).mp hx2
      refine ⟨by simpa [List.isEmpty_iff] using hx3.1, List.all_eq_true.mp hx3.2⟩
    rw [hc] at h hall
    by_cases hidx : i < ([c0, c1, c2] : List (List Char)).length
    · rw [if_pos hidx] at h
      simp only [Except.ok.injEq] at h
      have hc0 := hall c0 (by simp)
      have hc1 := hall c1 (by simp)
      have hc2 := hall c2 (by simp)
      simp only [List.length_cons, List.length_nil] at hidx
      interval_cases i
      · refine ⟨strOfNat (parseDigits c0 + 1), ['0'], ['0'], ?_,
          ⟨strOfNat_ne_nil _, strOfNat_all_digit _⟩, zero_comp_ok, zero_comp_ok⟩
        rw [← h]
        show List.intercalate ['.'] [strOfNat (parseDigits c0 + 1), ['0'], ['0']] = _
        rw [intercalate_three]
      · refine ⟨c0, strOfNat (parseDigits c1 + 1), ['0'], ?_, hc0,
          ⟨strOfNat_ne_nil _, strOfNat_all_digit _⟩, zero_comp_ok⟩
        rw [← h]
        show List.intercalate ['.'] [c0, strOfNat (parseDigits c1 + 1), ['0']] = _
        rw [intercalate_three]
      · refine ⟨c0, c1, strOfNat (parseDigits c2 + 1), ?_, hc0, hc1,
          ⟨strOfNat_ne_nil _, strOfNat_all_digit _⟩⟩
        rw [← h]
        show List.intercalate ['.'] [c0, c1, strOfNat (parseDigits c2 + 1)] = _
        rw [intercalate_three]
    · rw [if_neg hidx] at h
      exact absurd h (by simp)
  · rw [if_neg hcond] at h
    exact absurd h (by simp)

/-- C2.  Bump law: for every version string of exactly three non-negative
integer components and every bump component index `i ∈ {0, 1, 2}`,
`get_next_version` increments component `i` by one, resets every component
with index greater than `i` to `0`, and leaves every component with index
less than `i` unchanged; in particular `1.9.3` bumped at minor yields
`1.10.0`, at major `2.0.0`, at patch `1.9.4`. -/
theorem claim_C2 (s0 s1 s2 : List Char) (i : Nat) (hi : i < 3)
    (h0 : s0 ≠ [] ∧ ∀ c ∈ s0, c.isDigit = true)
    (h1 : s1 ≠ [] ∧ ∀ c ∈ s1, c.isDigit = true)
    (h2 : s2 ≠ [] ∧ ∀ c ∈ s2, c.isDigit = true) :
    (∃ r0 r1 r2 : List Char,
      get_next_version i (s0 ++ '.' :: (s1 ++ '.' :: s2)) =
        .ok (r0 ++ '.' :: (r1 ++ '.' :: r2)) ∧
      (∀ j, j < i → [r0, r1, r2].getD j [] = [s0, s1, s2].getD j []) ∧
      parseDigits ([r0, r1, r2].getD i []) = parseDigits ([s0, s1, s2].getD i []) + 1 ∧
      (∀ j, i < j → j < 3 → [r0, r1, r2].getD j [] = ['0'])) ∧
    get_next_version 0 "1.9.3".data = .ok "2.0.0".data ∧
    get_next_version 1 "1.9.3".data = .ok "1.10.0".data ∧
    get_next_version 2 "1.9.3".data = .ok "1.9.4".data := by
  refine ⟨?_, by decide, by decide, by decide⟩
  rw [get_next_version_valid hi h0 h1 h2]
  interval_cases i
  · refine ⟨strOfNat (parseDigits s0 + 1), ['0'], ['0'], ?_, ?_, ?_, ?_⟩
    · show Except.ok (List.intercalate ['.'] [strOfNat (parseDigits s0 + 1), ['0'], ['0']]) = _
      rw [intercalate_three]
    · intro j hj
      omega
    · show parseDigits (strOfNat (parseDigits s0 + 1)) = _
      rw [parseDigits_strOfNat]
      rfl
    · intro j hj hj3
      interval_cases j <;> rfl
  · refine ⟨s0, strOfNat (parseDigits s1 + 1), ['0'], ?_, ?_, ?_, ?_⟩
    · show Except.ok (List.intercalate ['.'] [s0, strOfNat (parseDigits s1 + 1), ['0']]) = _
      rw [intercalate_three]
    · intro j hj
      interval_cases j
      rfl
    · show parseDigits (strOfNat (parseDigits s1 + 1)) = _
      rw [parseDigits_strOfNat]
      rfl
    · intro j hj hj3
      interval_cases j
      rfl
  · refine ⟨s0, s1, strOfNat (parseDigits s2 + 1), ?_, ?_, ?_, ?_⟩
    · show Except.ok (List.intercalate ['.'] [s0, s1, strOfNat (parseDigits s2 + 1)]) = _
      rw [intercalate_three]
    · intro j hj
      interval_cases j <;> rfl
    · show parseDigits (strOfNat (parseDigits s2 + 1)) = _
      rw [parseDigits_strOfNat]
      rfl
    · intro j hj hj3
      omega

/-- Witness for C2 at the concrete version `1.9.3`, bump index 1 (minor). -/
theorem claim_C2_witness :
    ∃ r0 r1 r2 : List Char,
      get_next_version 1 ("1".data ++ '.' :: ("9".data ++ '.' :: "3".data)) =
        .ok (r0 ++ '.' :: (r1 ++ '.' :: r2)) ∧
      (∀ j, j < 1 → [r0, r1, r2].getD j [] = ["1".data, "9".data, "3".data].getD j []) ∧
      parseDigits ([r0, r1, r2].getD 1 []) =
        parseDigits (["1".data, "9".data, "3".data].getD 1 []) + 1 ∧
      (∀ j, 1 < j → j < 3 → [r0, r1, r2].getD j [] = ['0']) :=
  (claim_C2 "1".data "9".data "3".data 1 (by decide) (by decide) (by decide) (by decide)).1

/-! Round trip of the manifest rewrite. -/

theorem pySplit1_char_recons {c : Char} {A B : List Char} (h : c ∉ A) :
    pySplit1 [c] (A ++ c :: B) = [A, B] := by
  have hx := @pySplit1_reconstruct [c] A B (by simp) (noMatchBefore_char h)
  simpa [List.append_assoc] using hx

theorem pyStrip_ne_nil_of_mem {s : List Char} {c : Char} (hc : c ∈ s)
    (hcs : pyIsSpace c = false) : pyStrip s ≠ [] := by
  intro h
  rw [pyStrip, stripWhile_eq_nil_iff] at h
  rw [h c hc] at hcs
  exact absurd hcs (by simp)

theorem get_next_version_ok_chars {i : Nat} {v r : List Char}
    (h : get_next_version i v = .ok r) : ∀ c ∈ r, c.isDigit = true ∨ c = '.' := by
  obtain ⟨p0, p1, p2, hr, h0, h1, h2⟩ := get_next_version_ok_shape h
  subst hr
  intro c hc
  simp only [List.mem_append, List.mem_cons] at hc
  rcases hc with hc | hc | hc
  · exact Or.inl (h0.2 c hc)
  · exact Or.inr hc
  · rcases hc with hc | hc
    · exact Or.inl (h1.2 c hc)
    · rcases hc with hc | hc
      · exact Or.inr hc
      · exact Or.inl (h2.2 c hc)

theorem pySplit1_nil_ne {sep line rest : List Char} (h : pySplit1 sep [] = [line, rest]) :
    False := by
  simp [pySplit1] at h

theorem gv_step_blank_g {parsed content line rest : List Char}
    (hsp : pySplit1 ['\n'] content = [line, rest]) (hb : pyStrip line = []) :
    get_version_loop parsed content = get_version_loop (parsed ++ line ++ ['\n']) rest := by
  cases content with
  | nil => exact absurd hsp (by simp [pySplit1])
  | cons c r0 => exact gv_step_blank hsp hb

theorem gv_step_skip_g {parsed content line rest key rhs : List Char}
    (hsp : pySplit1 ['\n'] content = [line, rest]) (hb : pyStrip line ≠ [])
    (hsp2 : pySplit1 ['='] line = [key, rhs]) (hk : pyStrip key ≠ "version".data) :
    get_version_loop parsed content =
      get_version_loop (parsed ++ key ++ ['='] ++ rhs ++ ['\n']) rest := by
  cases content with
  | nil => exact absurd hsp (by simp [pySplit1])
  | cons c r0 => exact gv_step_skip hsp hb hsp2 hk

theorem gv_step_found_g {parsed content line rest key rhs : List Char}
    (hsp : pySplit1 ['\n'] content = [line, rest]) (hb : pyStrip line ≠ [])
    (hsp2 : pySplit1 ['='] line = [key, rhs]) (hk : pyStrip key = "version".data) :
    get_version_loop parsed content =
      .ok (some (stripWhile (· == '"') (pyStrip rhs))) := by
  cases content with
  | nil => exact absurd hsp (by simp [pySplit1])
  | cons c r0 => exact gv_step_found hsp hb hsp2 hk

theorem um_step_blank_g {i : Nat} {parsed content line rest : List Char}
    (hsp : pySplit1 ['\n'] content = [line, rest]) (hb : pyStrip line = []) :
    update_manifest_loop i parsed content =
      update_manifest_loop i (parsed ++ line ++ ['\n']) rest := by
  cases content with
  | nil => exact absurd hsp (by simp [pySplit1])
  | cons c r0 => exact um_step_blank hsp hb

theorem um_step_skip_g {i : Nat} {parsed content line rest key rhs : List Char}
    (hsp : pySplit1 ['\n'] content = [line, rest]) (hb : pyStrip line ≠ [])
    (hsp2 : pySplit1 ['='] line = [key, rhs]) (hk : pyStrip key ≠ "version".data) :
    update_manifest_loop i parsed content =
      update_manifest_loop i (parsed ++ key ++ ['='] ++ rhs ++ ['\n']) rest := by
  cases content with
  | nil => exact absurd hsp (by simp [pySplit1])
  | cons c r0 => exact um_step_skip hsp hb hsp2 hk

theorem um_step_found_g {i : Nat} {parsed content line rest key rhs : List Char}
    (hsp : pySplit1 ['\n'] content = [line, rest]) (hb : pyStrip line ≠ [])
    (hsp2 : pySplit1 ['='] line = [key, rhs]) (hk : pyStrip key = "version".data) :
    update_manifest_loop i parsed content =
      match get_next_version i (stripWhile (· == '"') (pyStrip rhs)) with
      | .error e => .error e
      | .ok new_version =>
        .ok (some
          (parsed ++ key ++ ['='] ++ ([' ', '"'] ++ new_version ++ ['"']) ++ '\n' :: rest,
           new_version)) := by
  cases content with
  | nil => exact absurd hsp (by simp [pySplit1])
  | cons c r0 => exact um_step_found hsp hb hsp2 hk

/-- A successful rewrite by `update_manifest`'s scan loop yields `parsed`
followed by a tail on which `get_version`'s scan loop returns exactly the new
version. -/
theorem um_roundtrip (i : Nat) :
    ∀ n content parsed nd v, content.length ≤ n →
      update_manifest_loop i parsed content = .ok (some (nd, v)) →
      ∃ tail, nd = parsed ++ tail ∧
        ∀ parsed', get_version_loop parsed' tail = .ok (some v) := by
  intro n
  induction n with
  | zero =>
    intro content parsed nd v hl h
    have hc : content = [] := List.eq_nil_of_length_eq_zero (Nat.le_zero.mp hl)
    subst hc
    exact absurd h (by simp [update_manifest_loop, umLoopF])
  | succ m ih =>
    intro content parsed nd v hl h
    cases content with
    | nil => exact absurd h (by simp [update_manifest_loop, umLoopF])
    | cons c rest0 =>
      rcases pySplit1_shape ['\n'] (c :: rest0) with ⟨a, ha⟩ | ⟨line, rest, hsp⟩
      · rw [um_step_nl_err ha] at h
        exact absurd h (by simp)
      · have hlen : rest.length ≤ m := by
          have hsl := split_two_len hsp
          simp only [List.length_cons] at hl
          omega
        obtain ⟨-, hceq, hnmb⟩ := pySplit1_two hsp
        have hline : '\n' ∉ line := not_mem_of_noMatchBefore_char hnmb
        by_cases hb : pyStrip line = []
        · rw [um_step_blank hsp hb] at h
          obtain ⟨tail, hnd, hgv⟩ := ih rest _ nd v hlen h
          refine ⟨line ++ '\n' :: tail, by simp [hnd], ?_⟩
          intro parsed'
          rw [gv_step_blank_g (pySplit1_char_recons hline) hb]
          exact hgv _
        · rcases pySplit1_shape ['='] line with ⟨a, ha2⟩ | ⟨key, rhs, hsp2⟩
          · rw [um_step_eq_err hsp hb ha2] at h
            exact absurd h (by simp)
          · obtain ⟨-, hleq, hnmb2⟩ := pySplit1_two hsp2
            have hkey : '=' ∉ key := not_mem_of_noMatchBefore_char hnmb2
            have hkeynl : '\n' ∉ key := fun hm => hline (by rw [hleq]; simp [hm])
            by_cases hk : pyStrip key ≠ "version".data
            · rw [um_step_skip hsp hb hsp2 hk] at h
              obtain ⟨tail, hnd, hgv⟩ := ih rest _ nd v hlen h
              refine ⟨key ++ ['='] ++ rhs ++ '\n' :: tail, by simp [hnd], ?_⟩
              intro parsed'
              have hle2 : key ++ ['='] ++ rhs ++ '\n' :: tail =
                  (key ++ '=' :: rhs) ++ '\n' :: tail := by simp
              have hlnl : '\n' ∉ key ++ '=' :: rhs := by
                intro hm
                apply hline
                rw [hleq]
                simpa using hm
              have hb2 : pyStrip (key ++ '=' :: rhs) ≠ [] := by
                have hle3 : key ++ '=' :: rhs = line := by
                  rw [hleq]
                  simp
                rw [hle3]
                exact hb
              rw [hle2, gv_step_skip_g (pySplit1_char_recons hlnl) hb2
                (pySplit1_char_recons hkey) hk]
              have hre : parsed' ++ key ++ ['='] ++ rhs ++ ['\n'] =
                  parsed' ++ (key ++ ['='] ++ rhs ++ ['\n']) := by simp
              exact hgv _
            · push_neg at hk
              rw [um_step_found hsp hb hsp2 hk] at h
              cases hgn : get_next_version i (stripWhile (· == '"') (pyStrip rhs)) with
              | error e =>
                rw [hgn] at h
                exact absurd h (by simp)
              | ok nv =>
                rw [hgn] at h
                simp only [Except.ok.injEq, Option.some.injEq, Prod.mk.injEq] at h
                obtain ⟨hnd, hveq⟩ := h
                subst hveq
                have hvchars := get_next_version_ok_chars hgn
                have hvnl : '\n' ∉ nv := digit_dot_not_mem hvchars (by decide) (by decide)
                have hvq : '"' ∉ nv := digit_dot_not_mem hvchars (by decide) (by decide)
                refine ⟨key ++ ['='] ++ ([' ', '"'] ++ nv ++ ['"']) ++ '\n' :: rest,
                  by rw [← hnd]; simp, ?_⟩
                intro parsed'
                have hle2 : key ++ ['='] ++ ([' ', '"'] ++ nv ++ ['"']) ++ '\n' :: rest =
                    (key ++ '=' :: ([' ', '"'] ++ nv ++ ['"'])) ++ '\n' :: rest := by simp
                have hlnl : '\n' ∉ key ++ '=' :: ([' ', '"'] ++ nv ++ ['"']) := by
                  intro hm
                  rcases List.mem_append.mp hm with h1 | h1
                  · exact hkeynl h1
                  · rcases List.mem_cons.mp h1 with h2 | h2
                    · exact absurd h2 (by decide)
                    · rcases List.mem_append.mp h2 with h3 | h3
                      · rcases List.mem_append.mp h3 with h4 | h4
                        · rcases List.mem_cons.mp h4 with h5 | h5
                          · exact absurd h5 (by decide)
                          · rcases List.mem_cons.mp h5 with h6 | h6
                            · exact absurd h6 (by decide)
                            · exact absurd h6 (by simp)
                        · exact hvnl h4
                      · rcases List.mem_cons.mp h3 with h4 | h4
                        · exact absurd h4 (by decide)
                        · exact absurd h4 (by simp)
                have hb2 : pyStrip (key ++ '=' :: ([' ', '"'] ++ nv ++ ['"'])) ≠ [] :=
                  pyStrip_ne_nil_of_mem (c := '=') (by simp) (by decide)
                rw [hle2, gv_step_found_g (pySplit1_char_recons hlnl) hb2
                  (pySplit1_char_recons hkey) hk]
                have hstr : pyStrip ([' ', '"'] ++ nv ++ ['"']) = '"' :: (nv ++ ['"']) := by
                  rw [pyStrip_space_quote]
                  simp
                rw [hstr, stripWhile_wrap (by decide) (fun c hc => by
                  simp only [beq_eq_false_iff_ne, ne_eq]
                  intro he
                  exact hvq (he ▸ hc))]

/-- C1.  Round trip: whenever `update_manifest`'s pure text transformation
succeeds on a manifest document (header present, version record found, current
version well-formed) with any bump component, running `get_version` on the
rewritten document returns exactly the bumped version. -/
theorem claim_C1 (i : Nat) (doc nd v : List Char)
    (h : update_manifest i doc = .ok (some (nd, v))) :
    get_version nd = .ok (some v) := by
  rw [update_manifest.eq_def] at h
  cases hsp : split doc "[package]".data none with
  | error e =>
    rw [hsp] at h
    exact absurd h (by simp)
  | ok pr =>
    obtain ⟨pre, rest⟩ := pr
    rw [hsp] at h
    obtain ⟨tail, hnd, hgv⟩ := um_roundtrip i rest.length rest _ nd v (le_refl _) h
    rw [get_version.eq_def]
    have hrec : pySplit1 "[package]".data (pre ++ "[package]".data ++ tail) = [pre, tail] :=
      pySplit1_reconstruct (by decide) (pySplit1_two (split_ok_inv hsp)).2.2
    subst hnd
    rw [split_of_two (d := none) hrec]
    exact hgv _

/-- Witness for C1: bump the minor component of a two-record manifest. -/
theorem claim_C1_witness :
    update_manifest 1 "[package]\nname = \"hoc\"\nversion = \"1.2.3\"\nedition = \"2021\"\n".data =
      .ok (some ("[package]\nname = \"hoc\"\nversion = \"1.3.0\"\nedition = \"2021\"\n".data,
        "1.3.0".data)) ∧
    get_version "[package]\nname = \"hoc\"\nversion = \"1.3.0\"\nedition = \"2021\"\n".data =
      .ok (some "1.3.0".data) :=
  ⟨by decide,
    claim_C1 1 "[package]\nname = \"hoc\"\nversion = \"1.2.3\"\nedition = \"2021\"\n".data
      "[package]\nname = \"hoc\"\nversion = \"1.3.0\"\nedition = \"2021\"\n".data
      "1.3.0".data (by decide)⟩

/-! Structural decomposition of a successful manifest rewrite. -/

/-- A successful rewrite replaces exactly the right-hand side of the matched
`version` record (everything after the first `=` of that line, up to the
newline) by a space and the quoted new version; every other byte of the
scanned region is copied verbatim. -/
theorem um_decomp (i : Nat) :
    ∀ n content parsed nd v, content.length ≤ n →
      update_manifest_loop i parsed content = .ok (some (nd, v)) →
      ∃ C key rhs rest, content = C ++ (key ++ '=' :: rhs) ++ '\n' :: rest ∧
        nd = parsed ++ (C ++ (key ++ '=' :: ([' ', '"'] ++ v ++ ['"'])) ++ '\n' :: rest) ∧
        '\n' ∉ key ∧ '=' ∉ key ∧ '\n' ∉ rhs ∧ pyStrip key = "version".data := by
  intro n
  induction n with
  | zero =>
    intro content parsed nd v hl h
    have hc : content = [] := List.eq_nil_of_length_eq_zero (Nat.le_zero.mp hl)
    subst hc
    exact absurd h (by simp [update_manifest_loop, umLoopF])
  | succ m ih =>
    intro content parsed nd v hl h
    cases content with
    | nil => exact absurd h (by simp [update_manifest_loop, umLoopF])
    | cons c rest0 =>
      rcases pySplit1_shape ['\n'] (c :: rest0) with ⟨a, ha⟩ | ⟨line, rest, hsp⟩
      · rw [um_step_nl_err ha] at h
        exact absurd h (by simp)
      · have hlen : rest.length ≤ m := by
          have hsl := split_two_len hsp
          simp only [List.length_cons] at hl
          omega
        obtain ⟨-, hceq, hnmb⟩ := pySplit1_two hsp
        have hline : '\n' ∉ line := not_mem_of_noMatchBefore_char hnmb
        have hceq' : c :: rest0 = line ++ '\n' :: rest := by simpa using hceq
        by_cases hb : pyStrip line = []
        · rw [um_step_blank hsp hb] at h
          obtain ⟨C, key, rhs, rest', he1, he2, hf⟩ := ih rest _ nd v hlen h
          refine ⟨line ++ '\n' :: C, key, rhs, rest', ?_, ?_, hf⟩
          · rw [hceq', he1]
            simp
          · rw [he2]
            simp
        · rcases pySplit1_shape ['='] line with ⟨a, ha2⟩ | ⟨key0, rhs0, hsp2⟩
          · rw [um_step_eq_err hsp hb ha2] at h
            exact absurd h (by simp)
          · obtain ⟨-, hleq, hnmb2⟩ := pySplit1_two hsp2
            by_cases hk : pyStrip key0 ≠ "version".data
            · rw [um_step_skip hsp hb hsp2 hk] at h
              obtain ⟨C, key, rhs, rest', he1, he2, hf⟩ := ih rest _ nd v hlen h
              refine ⟨(key0 ++ '=' :: rhs0) ++ '\n' :: C, key, rhs, rest', ?_, ?_, hf⟩
              · rw [hceq', hleq, he1]
                simp
              · rw [he2]
                simp
            · push_neg at hk
              rw [um_step_found hsp hb hsp2 hk] at h
              cases hgn : get_next_version i (stripWhile (· == '"') (pyStrip rhs0)) with
              | error e =>
                rw [hgn] at h
                exact absurd h (by simp)
              | ok nv =>
                rw [hgn] at h
                simp only [Except.ok.injEq, Option.some.injEq, Prod.mk.injEq] at h
                obtain ⟨hnd, hveq⟩ := h
                subst hveq
                have hkey : '=' ∉ key0 := not_mem_of_noMatchBefore_char hnmb2
                have hkeynl : '\n' ∉ key0 := fun hm => hline (by rw [hleq]; simp [hm])
                have hrhsnl : '\n' ∉ rhs0 := fun hm => hline (by rw [hleq]; simp [hm])
                refine ⟨[], key0, rhs0, rest, ?_, ?_, hkeynl, hkey, hrhsnl, hk⟩
                · rw [hceq', hleq]
                  simp
                · rw [← hnd]
                  simp

/-- C4 (as amended).  Frame property of the manifest rewrite: on success the
document decomposes as prefix, header, copied records, the version record key
and its `=`, the replaced right-hand-side span, the newline and the untouched
suffix; all bytes outside the right-hand-side span of the version record are
byte-identical between input and output. -/
theorem claim_C4 (i : Nat) (doc nd v : List Char)
    (h : update_manifest i doc = .ok (some (nd, v))) :
    ∃ pre C key rhs rest : List Char,
      doc = pre ++ "[package]".data ++ C ++ (key ++ '=' :: rhs) ++ '\n' :: rest ∧
      nd = pre ++ "[package]".data ++ C ++ (key ++ '=' :: ([' ', '"'] ++ v ++ ['"'])) ++
        '\n' :: rest ∧
      '\n' ∉ key ∧ '=' ∉ key ∧ '\n' ∉ rhs ∧ pyStrip key = "version".data := by
  rw [update_manifest.eq_def] at h
  cases hsp : split doc "[package]".data none with
  | error e =>
    rw [hsp] at h
    exact absurd h (by simp)
  | ok pr =>
    obtain ⟨pre, rest⟩ := pr
    rw [hsp] at h
    obtain ⟨C, key, rhs, rest', he1, he2, hf⟩ :=
      um_decomp i rest.length rest _ nd v (le_refl _) h
    obtain ⟨-, hdoc, -⟩ := pySplit1_two (split_ok_inv hsp)
    exact ⟨pre, C, key, rhs, rest', by rw [hdoc, he1]; simp, by rw [he2]; simp, hf⟩

/-- C4 counterexample: the rewrite replaces the whole right-hand side of the
version record, so surplus whitespace around the quoted value is not
preserved; with two spaces before the quoted value the documents cannot be
aligned outside the quoted spans (the rewritten document is one byte
shorter). -/
theorem claim_C4_counterexample :
    update_manifest 0 "[package]\nversion =  \"1.2.3\"\nend\n".data =
      .ok (some ("[package]\nversion = \"2.0.0\"\nend\n".data, "2.0.0".data)) ∧
    ¬ ∃ A B : List Char,
        "[package]\nversion =  \"1.2.3\"\nend\n".data = A ++ "\"1.2.3\"".data ++ B ∧
        "[package]\nversion = \"2.0.0\"\nend\n".data = A ++ "\"2.0.0\"".data ++ B := by
  refine ⟨by decide, ?_⟩
  rintro ⟨A, B, h1, h2⟩
  have l1 := congrArg List.length h1
  have l2 := congrArg List.length h2
  simp at l1 l2
  omega

/-- Witness for C4 at a concrete patch bump. -/
theorem claim_C4_witness :
    ∃ pre C key rhs rest : List Char,
      "[package]\nversion = \"0.1.0\"\nx = 2\n".data =
        pre ++ "[package]".data ++ C ++ (key ++ '=' :: rhs) ++ '\n' :: rest ∧
      "[package]\nversion = \"0.1.1\"\nx = 2\n".data =
        pre ++ "[package]".data ++ C ++ (key ++ '=' :: ([' ', '"'] ++ "0.1.1".data ++ ['"'])) ++
          '\n' :: rest ∧
      '\n' ∉ key ∧ '=' ∉ key ∧ '\n' ∉ rhs ∧ pyStrip key = "version".data :=
  claim_C4 2 "[package]\nversion = \"0.1.0\"\nx = 2\n".data
    "[package]\nversion = \"0.1.1\"\nx = 2\n".data "0.1.1".data (by decide)

/-! Evaluating the scanners on a canonical one-record manifest. -/

theorem not_mem_value_line {d : Char} {key v : List Char} (hd1 : d ∉ key) (hd2 : d ≠ '=')
    (hd3 : d ≠ ' ') (hd4 : d ≠ '"') (hd5 : d ∉ v) :
    d ∉ key ++ '=' :: ([' ', '"'] ++ v ++ ['"']) := by
  intro hm
  rcases List.mem_append.mp hm with h1 | h1
  · exact hd1 h1
  · rcases List.mem_cons.mp h1 with h2 | h2
    · exact hd2 h2
    · rcases List.mem_append.mp h2 with h3 | h3
      · rcases List.mem_append.mp h3 with h4 | h4
        · rcases List.mem_cons.mp h4 with h5 | h5
          · exact hd3 h5
          · rcases List.mem_cons.mp h5 with h6 | h6
            · exact hd4 h6
            · exact absurd h6 (by simp)
        · exact hd5 h4
      · rcases List.mem_cons.mp h3 with h4 | h4
        · exact hd4 h4
        · exact absurd h4 (by simp)

/-- Behaviour of `get_version` and `update_manifest` on the canonical manifest
`[package]\nversion = "<v>"\n` with an arbitrary quote-, newline- and
equals-free version value `v`: the reader returns `v` unvalidated, the writer
first runs `get_next_version` on `v`. -/
theorem manifest_doc_eval (i : Nat) (v : List Char)
    (hnl : '\n' ∉ v) (hq : '"' ∉ v) :
    get_version ("[package]\nversion =".data ++ ([' ', '"'] ++ v ++ ['"']) ++ ['\n']) =
      .ok (some v) ∧
    update_manifest i ("[package]\nversion =".data ++ ([' ', '"'] ++ v ++ ['"']) ++ ['\n']) =
      match get_next_version i v with
      | .error e => .error e
      | .ok nv =>
        .ok (some ("[package]\nversion =".data ++ ([' ', '"'] ++ nv ++ ['"']) ++ ['\n'], nv)) := by
  have hc : "[package]\nversion =".data =
      "[package]".data ++ '\n' :: ("version ".data ++ ['=']) := by decide
  have hdoc : "[package]\nversion =".data ++ ([' ', '"'] ++ v ++ ['"']) ++ ['\n'] =
      "[package]".data ++
        '\n' :: (("version ".data ++ '=' :: ([' ', '"'] ++ v ++ ['"'])) ++ '\n' :: []) := by
    rw [hc]
    simp
  have hs0 : ∀ B : List Char,
      pySplit1 "[package]".data ("[package]".data ++ B) = [[], B] := by
    intro B
    have hx := @pySplit1_reconstruct "[package]".data [] B
      (by decide) (noMatchBefore_nil _)
    simpa using hx
  have hsB : pySplit1 ['\n']
      ('\n' :: (("version ".data ++ '=' :: ([' ', '"'] ++ v ++ ['"'])) ++ '\n' :: [])) =
      [[], ("version ".data ++ '=' :: ([' ', '"'] ++ v ++ ['"'])) ++ '\n' :: []] := by
    have hx := pySplit1_char_recons (c := '\n')
      (A := []) (B := ("version ".data ++ '=' :: ([' ', '"'] ++ v ++ ['"'])) ++ '\n' :: [])
      (by simp)
    simpa using hx
  have hlnl : '\n' ∉ "version ".data ++ '=' :: ([' ', '"'] ++ v ++ ['"']) :=
    not_mem_value_line (by decide) (by decide) (by decide) (by decide) hnl
  have hsp : pySplit1 ['\n']
      (("version ".data ++ '=' :: ([' ', '"'] ++ v ++ ['"'])) ++ '\n' :: []) =
      [("version ".data ++ '=' :: ([' ', '"'] ++ v ++ ['"'])), []] :=
    pySplit1_char_recons hlnl
  have hb : pyStrip ("version ".data ++ '=' :: ([' ', '"'] ++ v ++ ['"'])) ≠ [] :=
    pyStrip_ne_nil_of_mem (c := '=') (by simp) (by decide)
  have hsp2 : pySplit1 ['=']
      ("version ".data ++ '=' :: ([' ', '"'] ++ v ++ ['"'])) =
      ["version ".data, [' ', '"'] ++ v ++ ['"']] :=
    pySplit1_char_recons (by decide)
  have hk : pyStrip "version ".data = "version".data := by decide
  have hval : stripWhile (· == '"') (pyStrip ([' ', '"'] ++ v ++ ['"'])) = v := by
    have hstr : pyStrip ([' ', '"'] ++ v ++ ['"']) = '"' :: (v ++ ['"']) := by
      rw [pyStrip_space_quote]
      simp
    rw [hstr, stripWhile_wrap (by decide) (fun c hcm => by
      simp only [beq_eq_false_iff_ne, ne_eq]
      intro he
      exact hq (he ▸ hcm))]
  constructor
  · rw [hdoc, get_version.eq_def, split_of_two (d := none) (hs0 _)]
    simp only
    rw [gv_step_blank_g hsB rfl, gv_step_found_g hsp hb hsp2 hk, hval]
  · rw [hdoc, update_manifest.eq_def, split_of_two (d := none) (hs0 _)]
    simp only
    rw [um_step_blank_g hsB rfl, um_step_found_g hsp hb hsp2 hk, hval]
    cases get_next_version i v with
    | error e => rfl
    | ok nv =>
      simp only [Except.ok.injEq, Option.some.injEq, Prod.mk.injEq]
      exact ⟨by simp, trivial⟩

theorem get_next_version_invalid {i : Nat} {v : List Char}
    (hbad : (((pySplitAll ['.'] v).length == 3) &&
      (pySplitAll ['.'] v).all (fun c => (!c.isEmpty) && c.all Char.isDigit)) = false) :
    get_next_version i v = .error (.nameError "version") := by
  rw [get_next_version, if_neg (by simp [hbad])]

/-- C3 counterexample: on a manifest whose version value is `1.2`,
`get_version` (readVersion) succeeds and returns the malformed string instead
of failing with a format error. -/
theorem claim_C3_counterexample :
    get_version "[package]\nversion = \"1.2\"\n".data = .ok (some "1.2".data) ∧
    ¬ ∃ e, get_version "[package]\nversion = \"1.2\"\n".data = .error e := by
  refine ⟨by decide, ?_⟩
  rintro ⟨e, he⟩
  rw [show get_version "[package]\nversion = \"1.2\"\n".data = .ok (some "1.2".data)
    from by decide] at he
  exact absurd he (by simp)

/-- C3 (as amended).  For every located version value that does not parse as
exactly three dot-separated non-negative integers, `update_manifest`
(writeVersion) aborts — the invalid-version branch is taken, surfacing as the
`NameError` raised while the script formats its error message — while
`get_version` (readVersion) performs no validation and returns the malformed
value as-is; in particular on the manifests with version values `1.2`,
`1.2.x`, `1..3` and the empty string. -/
theorem claim_C3 (i : Nat) (v : List Char)
    (hnl : '\n' ∉ v) (hq : '"' ∉ v)
    (hbad : (((pySplitAll ['.'] v).length == 3) &&
      (pySplitAll ['.'] v).all (fun c => (!c.isEmpty) && c.all Char.isDigit)) = false) :
    (get_version ("[package]\nversion =".data ++ ([' ', '"'] ++ v ++ ['"']) ++ ['\n']) =
        .ok (some v) ∧
      update_manifest i ("[package]\nversion =".data ++ ([' ', '"'] ++ v ++ ['"']) ++ ['\n']) =
        .error (.nameError "version")) ∧
    get_version "[package]\nversion = \"1.2\"\n".data = .ok (some "1.2".data) ∧
    get_version "[package]\nversion = \"1.2.x\"\n".data = .ok (some "1.2.x".data) ∧
    get_version "[package]\nversion = \"1..3\"\n".data = .ok (some "1..3".data) ∧
    get_version "[package]\nversion = \"\"\n".data = .ok (some ([] : List Char)) ∧
    update_manifest 0 "[package]\nversion = \"1.2\"\n".data = .error (.nameError "version") ∧
    update_manifest 0 "[package]\nversion = \"1.2.x\"\n".data = .error (.nameError "version") ∧
    update_manifest 0 "[package]\nversion = \"1..3\"\n".data = .error (.nameError "version") ∧
    update_manifest 0 "[package]\nversion = \"\"\n".data = .error (.nameError "version") := by
  refine ⟨⟨(manifest_doc_eval i v hnl hq).1, ?_⟩,
    by decide, by decide, by decide, by decide, by decide, by decide, by decide, by decide⟩
  rw [(manifest_doc_eval i v hnl hq).2, get_next_version_invalid hbad]

/-- Witness for C3 at the malformed version value `1.2`. -/
theorem claim_C3_witness :
    (get_version ("[package]\nversion =".data ++ ([' ', '"'] ++ "1.2".data ++ ['"']) ++ ['\n']) =
        .ok (some "1.2".data) ∧
      update_manifest 1
          ("[package]\nversion =".data ++ ([' ', '"'] ++ "1.2".data ++ ['"']) ++ ['\n']) =
        .error (.nameError "version")) :=
  (claim_C3 1 "1.2".data (by decide) (by decide) (by decide)).1

/-! Behaviour when no version record exists. -/

/-- A manifest record line the scan passes over: blank, or keyed with
something other than `version`. -/
def benignLine (l : List Char) : Prop :=
  '\n' ∉ l ∧
    (pyStrip l = [] ∨ ∃ k r, l = k ++ '=' :: r ∧ '=' ∉ k ∧ pyStrip k ≠ "version".data)

theorem benign_loop (i : Nat) :
    ∀ ls : List (List Char), (∀ l ∈ ls, benignLine l) → ∀ parsed,
      get_version_loop parsed ((ls.map (· ++ ['\n'])).flatten) = .ok none ∧
      update_manifest_loop i parsed ((ls.map (· ++ ['\n'])).flatten) = .ok none := by
  intro ls
  induction ls with
  | nil =>
    intro _ parsed
    exact ⟨rfl, rfl⟩
  | cons l ls' ih =>
    intro hls parsed
    obtain ⟨hnl, hcase⟩ := hls l (by simp)
    have hih := ih (fun x hx => hls x (by simp [hx]))
    have hjoin : ((l :: ls').map (· ++ ['\n'])).flatten =
        l ++ '\n' :: ((ls'.map (· ++ ['\n'])).flatten) := by simp
    have hsp : pySplit1 ['\n'] (l ++ '\n' :: ((ls'.map (· ++ ['\n'])).flatten)) =
        [l, (ls'.map (· ++ ['\n'])).flatten] := pySplit1_char_recons hnl
    rcases hcase with hb | ⟨k, r, hl, hkeq, hkne⟩
    · rw [hjoin]
      exact ⟨by rw [gv_step_blank_g hsp hb]; exact (hih _).1,
        by rw [um_step_blank_g hsp hb]; exact (hih _).2⟩
    · have hb : pyStrip l ≠ [] := by
        rw [hl]
        exact pyStrip_ne_nil_of_mem (c := '=') (by simp) (by decide)
      have hsp2 : pySplit1 ['='] l = [k, r] := by
        rw [hl]
        exact pySplit1_char_recons hkeq
      rw [hjoin]
      exact ⟨by rw [gv_step_skip_g hsp hb hsp2 hkne]; exact (hih _).1,
        by rw [um_step_skip_g hsp hb hsp2 hkne]; exact (hih _).2⟩

/-- C10 counterexample: a manifest whose record after the header is not
newline-terminated makes both scanners abort with the missing-separator
error rather than terminate with Python `None`, even though every non-blank
line has an `=` and no key equals `version`. -/
theorem claim_C10_counterexample :
    get_version "[package]x = 1".data =
      .error (.errorExit ("\"\n\" separator not found")) ∧
    update_manifest 0 "[package]x = 1".data =
      .error (.errorExit ("\"\n\" separator not found")) := by
  constructor <;> decide

/-- C10 (as amended).  If every line after the header is newline-terminated
and benign (blank, or with an `=` whose trimmed key is not `version`), both
`get_version` and `update_manifest` terminate without error and return Python
`None`; the missing version record is not a structure error and
`update_manifest_io` writes nothing. -/
theorem claim_C10 (i : Nat) (pre : List Char) (ls : List (List Char))
    (hpre : noMatchBefore "[package]".data pre)
    (hls : ∀ l ∈ ls, benignLine l) :
    get_version (pre ++ "[package]".data ++ (ls.map (· ++ ['\n'])).flatten) = .ok none ∧
    update_manifest i (pre ++ "[package]".data ++ (ls.map (· ++ ['\n'])).flatten) = .ok none ∧
    ∀ fs : FS, fs.manifest = pre ++ "[package]".data ++ (ls.map (· ++ ['\n'])).flatten →
      update_manifest_io i fs = (fs, .ok none) := by
  have hrec : pySplit1 "[package]".data
      (pre ++ "[package]".data ++ (ls.map (· ++ ['\n'])).flatten) =
      [pre, (ls.map (· ++ ['\n'])).flatten] :=
    pySplit1_reconstruct (by decide) hpre
  have hloop := benign_loop i ls hls (pre ++ "[package]".data)
  refine ⟨?_, ?_, ?_⟩
  · rw [get_version.eq_def, split_of_two (d := none) hrec]
    exact hloop.1
  · rw [update_manifest.eq_def, split_of_two (d := none) hrec]
    exact hloop.2
  · intro fs hfs
    rw [update_manifest_io, hfs]
    rw [update_manifest.eq_def, split_of_two (d := none) hrec]
    simp only
    rw [hloop.2]

/-- Witness for C10 on a one-record manifest with a foreign key. -/
theorem claim_C10_witness :
    get_version ([] ++ "[package]".data ++ ((["x = 1".data].map (· ++ ['\n'])).flatten)) =
      .ok none ∧
    update_manifest 0 ([] ++ "[package]".data ++ ((["x = 1".data].map (· ++ ['\n'])).flatten)) =
      .ok none ∧
    ∀ fs : FS, fs.manifest = [] ++ "[package]".data ++ ((["x = 1".data].map (· ++ ['\n'])).flatten) →
      update_manifest_io 0 fs = (fs, .ok none) :=
  claim_C10 0 [] ["x = 1".data] (noMatchBefore_nil _)
    (fun l hl => by
      rw [List.mem_singleton] at hl
      subst hl
      exact ⟨by decide, Or.inr ⟨"x ".data, " 1".data, by decide, by decide, by decide⟩⟩)

/-! Write discipline of the bump operation. -/

theorem um_io_changelog (i : Nat) (fs : FS) :
    (update_manifest_io i fs).1.changelog = fs.changelog := by
  rw [update_manifest_io]
  cases update_manifest i fs.manifest with
  | error e => rfl
  | ok mv =>
    cases mv with
    | none => rfl
    | some p =>
      obtain ⟨nd, nv⟩ := p
      rfl

theorem um_io_err_state {i : Nat} {fs : FS} {e : PyErr}
    (h : (update_manifest_io i fs).2 = .error e) : (update_manifest_io i fs).1 = fs := by
  rw [update_manifest_io] at h ⊢
  cases hm : update_manifest i fs.manifest with
  | error e2 => rfl
  | ok mv =>
    rw [hm] at h
    cases mv with
    | none => exact absurd h (by simp)
    | some p =>
      obtain ⟨nd, nv⟩ := p
      exact absurd h (by simp)

theorem uc_io_err_state {v d dout derr : List Char} {fs : FS} {e : PyErr}
    (h : (update_changelog_io v d dout derr fs).2 = .error e) :
    (update_changelog_io v d dout derr fs).1 = fs := by
  rw [update_changelog_io] at h ⊢
  by_cases h1 : derr ≠ []
  · rw [if_pos h1]
  · rw [if_neg h1] at h ⊢
    by_cases h2 : dout = []
    · rw [if_pos h2]
    · rw [if_neg h2] at h ⊢
      cases hm : update_changelog v d fs.changelog with
      | error e2 => rfl
      | ok nc =>
        rw [hm] at h
        exact absurd h (by simp)

/-- C9 (as amended).  Per-file write discipline of `bump_version`: a failing
`update_manifest` leaves the file system untouched and aborts the whole bump
with that error before the changelog step runs; a failing changelog step
leaves its file system argument untouched; on any failing bump the changelog
is never written.  (The manifest, however, is already rewritten when a later
changelog-stage failure aborts the bump — see the counterexample.) -/
theorem claim_C9 (i : Nat) (d dout derr : List Char) (fs : FS) :
    (∀ e, (update_manifest_io i fs).2 = .error e → (update_manifest_io i fs).1 = fs) ∧
    (∀ v e, (update_changelog_io v d dout derr fs).2 = .error e →
      (update_changelog_io v d dout derr fs).1 = fs) ∧
    (∀ e, (update_manifest_io i fs).2 = .error e →
      bump_version_io i d dout derr fs = (fs, .error e)) ∧
    (∀ e, (bump_version_io i d dout derr fs).2 = .error e →
      (bump_version_io i d dout derr fs).1.changelog = fs.changelog) := by
  refine ⟨fun e he => um_io_err_state he, fun v e he => uc_io_err_state he, ?_, ?_⟩
  · intro e he
    cases hu : update_manifest_io i fs with
    | mk fs1 r =>
      rw [hu] at he
      cases r with
      | error e2 =>
        have he2 : e2 = e := by
          have hx : (Except.error e2 : Except PyErr (Option (List Char))) = .error e := he
          injection hx
        subst he2
        have hfs1 : fs1 = fs := by
          have hx := @um_io_err_state i fs e2 (by rw [hu])
          rw [hu] at hx
          exact hx
        subst hfs1
        rw [bump_version_io, hu]
      | ok mv => exact absurd he (by simp)
  · intro e he
    cases hu : update_manifest_io i fs with
    | mk fs1 r =>
      have hcl : fs1.changelog = fs.changelog := by
        have hx := um_io_changelog i fs
        rw [hu] at hx
        exact hx
      cases r with
      | error e2 =>
        rw [bump_version_io, hu]
        exact hcl
      | ok mv =>
        cases mv with
        | some v =>
          cases huc : update_changelog_io v d dout derr fs1 with
          | mk fs2 r2 =>
            rw [bump_version_io, hu] at he ⊢
            simp only at he ⊢
            rw [huc] at he ⊢
            cases r2 with
            | error e2 =>
              have hfs2 : fs2 = fs1 := by
                have hx := @uc_io_err_state v d dout derr fs1 e2 (by rw [huc])
                rw [huc] at hx
                exact hx
              show fs2.changelog = fs.changelog
              rw [hfs2]
              exact hcl
            | ok u => exact absurd he (by simp)
        | none =>
          cases huc : update_changelog_io "None".data d dout derr fs1 with
          | mk fs2 r2 =>
            rw [bump_version_io, hu] at he ⊢
            simp only at he ⊢
            rw [huc] at he ⊢
            cases r2 with
            | error e2 =>
              have hfs2 : fs2 = fs1 := by
                have hx := @uc_io_err_state "None".data d dout derr fs1 e2 (by rw [huc])
                rw [huc] at hx
                exact hx
              show fs2.changelog = fs.changelog
              rw [hfs2]
              exact hcl
            | ok u => exact absurd he (by simp)

/-- C9 counterexample: with a valid manifest but a changelog lacking the
unreleased heading, the bump fails at the changelog stage, yet the manifest
file has already been rewritten — the whole operation is not atomic. -/
theorem claim_C9_counterexample :
    (bump_version_io 2 "2026-10-12".data "diff".data []
        ⟨"[package]\nversion = \"1.2.3\"\n".data, "# Log\nnothing here\n".data⟩).2 =
      .error (.errorExit "no unreleased version section found") ∧
    (bump_version_io 2 "2026-10-12".data "diff".data []
        ⟨"[package]\nversion = \"1.2.3\"\n".data, "# Log\nnothing here\n".data⟩).1.manifest ≠
      "[package]\nversion = \"1.2.3\"\n".data := by
  constructor <;> decide

/-- Witness for C9: a manifest-stage failure (no `[package]` header) aborts the
bump with the file system untouched. -/
theorem claim_C9_witness :
    bump_version_io 0 "2026-10-12".data "diff".data []
        ⟨"no header here\n".data, "## [Unreleased]\nx\n".data⟩ =
      (⟨"no header here\n".data, "## [Unreleased]\nx\n".data⟩,
        .error (.errorExit "\"[package]\" separator not found")) :=
  (claim_C9 0 "2026-10-12".data "diff".data []
      ⟨"no header here\n".data, "## [Unreleased]\nx\n".data⟩).2.2.1
    (.errorExit "\"[package]\" separator not found") (by decide)

/-! Occurrence counting and replacement. -/

theorem pyCount_zero_iff {old : List Char} (hne : old ≠ []) :
    ∀ s, pyCount old s = 0 ↔ ¬ old <:+: s := by
  intro s
  induction s with
  | nil =>
    rw [pyCount_nil]
    simp only [true_iff]
    intro hi
    exact hne (List.sublist_nil.mp hi.sublist)
  | cons c rest ih =>
    by_cases hc : old ≠ [] ∧ old.isPrefixOf (c :: rest)
    · rw [pyCount_cons_pos hc]
      have hp : old <:+: c :: rest := by
        obtain ⟨t, ht⟩ := isPrefixOf_eq.mp hc.2
        exact ⟨[], t, by simp [ht]⟩
      constructor
      · intro h0
        omega
      · intro hni
        exact absurd hp hni
    · rw [pyCount_cons_neg hc, ih, List.infix_cons_iff]
      constructor
      · intro hni hd
        rcases hd with hd | hd
        · exact hc ⟨hne, isPrefixOf_eq.mpr hd⟩
        · exact hni hd
      · intro hni hd
        exact hni (Or.inr hd)

theorem not_prefix_at_head {old : List Char} {a : Char} {A B : List Char}
    (hA : noMatchBefore old (a :: A)) : ¬ old.isPrefixOf (a :: (A ++ old ++ B)) := by
  intro hp
  rw [isPrefixOf_eq] at hp
  have h1 : old <+: ((a :: A) ++ old) ++ B := by simpa using hp
  have h2 : old <+: (a :: A) ++ old :=
    prefix_of_append_of_length_le h1 (by simp; omega)
  exact hA [] (a :: A) rfl (by simp) h2

/-- First-occurrence decomposition: a non-zero scan count yields the prefix up
to the first occurrence. -/
theorem pyCount_first_decomp {old : List Char} (hne : old ≠ []) :
    ∀ s, pyCount old s ≠ 0 → ∃ A B, s = A ++ old ++ B ∧ noMatchBefore old A := by
  intro s
  induction s with
  | nil => intro h0; exact absurd (pyCount_nil old) h0
  | cons c rest ih =>
    intro h0
    by_cases hc : old ≠ [] ∧ old.isPrefixOf (c :: rest)
    · refine ⟨[], (c :: rest).drop old.length, ?_, noMatchBefore_nil old⟩
      simpa using eq_append_of_pre (isPrefixOf_eq.mp hc.2)
    · rw [pyCount_cons_neg hc] at h0
      obtain ⟨A', B, heq, hnm⟩ := ih h0
      refine ⟨c :: A', B, by simp [heq], ?_⟩
      intro A1 A2 hA hne2 hp
      cases A1 with
      | nil =>
        simp only [List.nil_append] at hA
        apply hc
        refine ⟨hne, ?_⟩
        rw [← hA] at hp
        have h1 : (c :: A') ++ old <+: ((c :: A') ++ old) ++ B := List.prefix_append _ _
        have h2 : old <+: ((c :: A') ++ old) ++ B := hp.trans h1
        rw [isPrefixOf_eq]
        rw [heq]
        simpa using h2
      | cons a1 A1' =>
        simp only [List.cons_append, List.cons.injEq] at hA
        exact hnm A1' A2 hA.2 hne2 hp

theorem pyCount_decomp {old : List Char} (hne : old ≠ []) {A : List Char}
    (hA : noMatchBefore old A) (B : List Char) :
    pyCount old (A ++ old ++ B) = 1 + pyCount old B := by
  induction A with
  | nil =>
    cases old with
    | nil => exact absurd rfl hne
    | cons o ot =>
      rw [List.nil_append, List.cons_append, pyCount_cons_pos
        ⟨hne, isPrefixOf_eq.mpr (by rw [← List.cons_append]; exact List.prefix_append _ _)⟩]
      rw [← List.cons_append, List.drop_left]
  | cons a A' ih =>
    rw [show (a :: A') ++ old ++ B = a :: (A' ++ old ++ B) by simp,
      pyCount_cons_neg (fun hcc => not_prefix_at_head hA hcc.2),
      ih (noMatchBefore_cons hA)]

theorem pyReplaceOne_decomp {old : List Char} (hne : old ≠ []) (new : List Char)
    {A : List Char} (hA : noMatchBefore old A) (B : List Char) :
    pyReplaceOne old new (A ++ old ++ B) = A ++ new ++ B := by
  induction A with
  | nil =>
    cases old with
    | nil => exact absurd rfl hne
    | cons o ot =>
      rw [List.nil_append, List.cons_append, pyReplaceOne, if_pos
        ⟨hne, isPrefixOf_eq.mpr (by rw [← List.cons_append]; exact List.prefix_append _ _)⟩]
      rw [← List.cons_append, List.drop_left]
      simp
  | cons a A' ih =>
    rw [show (a :: A') ++ old ++ B = a :: (A' ++ old ++ B) by simp,
      pyReplaceOne, if_neg (fun hcc => not_prefix_at_head hA hcc.2),
      ih (noMatchBefore_cons hA)]
    simp

theorem pyReplaceAll_decomp {old : List Char} (hne : old ≠ []) (new : List Char)
    {A : List Char} (hA : noMatchBefore old A) (B : List Char) :
    pyReplaceAll old new (A ++ old ++ B) = A ++ new ++ pyReplaceAll old new B := by
  induction A with
  | nil =>
    cases old with
    | nil => exact absurd rfl hne
    | cons o ot =>
      rw [List.nil_append, List.cons_append, pyReplaceAll_cons_pos new
        ⟨hne, isPrefixOf_eq.mpr (by rw [← List.cons_append]; exact List.prefix_append _ _)⟩]
      rw [← List.cons_append, List.drop_left]
      simp
  | cons a A' ih =>
    rw [show (a :: A') ++ old ++ B = a :: (A' ++ old ++ B) by simp,
      pyReplaceAll_cons_neg new (fun hcc => not_prefix_at_head hA hcc.2),
      ih (noMatchBefore_cons hA)]
    simp

theorem pySplitAll_decomp {old : List Char} (hne : old ≠ []) {A : List Char}
    (hA : noMatchBefore old A) (B : List Char) :
    pySplitAll old (A ++ old ++ B) = A :: pySplitAll old B := by
  induction A with
  | nil =>
    cases old with
    | nil => exact absurd rfl hne
    | cons o ot =>
      rw [List.nil_append, List.cons_append, pySplitAll_cons_pos
        ⟨hne, isPrefixOf_eq.mpr (by rw [← List.cons_append]; exact List.prefix_append _ _)⟩]
      rw [← List.cons_append, List.drop_left]
  | cons a A' ih =>
    rw [show (a :: A') ++ old ++ B = a :: (A' ++ old ++ B) by simp,
      pySplitAll_cons_neg (fun hcc => not_prefix_at_head hA hcc.2),
      ih (noMatchBefore_cons hA)]

theorem pyReplaceOne_zero {old new : List Char} :
    ∀ {s}, pyCount old s = 0 → pyReplaceOne old new s = s := by
  intro s
  induction s with
  | nil => intro _; rfl
  | cons c rest ih =>
    intro h0
    by_cases hc : old ≠ [] ∧ old.isPrefixOf (c :: rest)
    · rw [pyCount_cons_pos hc] at h0
      omega
    · rw [pyCount_cons_neg hc] at h0
      rw [pyReplaceOne, if_neg hc, ih h0]

theorem pyReplaceAll_zero {old new : List Char} :
    ∀ {s}, pyCount old s = 0 → pyReplaceAll old new s = s := by
  intro s
  induction s with
  | nil => intro _; rfl
  | cons c rest ih =>
    intro h0
    by_cases hc : old ≠ [] ∧ old.isPrefixOf (c :: rest)
    · rw [pyCount_cons_pos hc] at h0
      omega
    · rw [pyCount_cons_neg hc] at h0
      rw [pyReplaceAll_cons_neg _ hc, ih h0]

theorem pySplitAll_zero {old : List Char} :
    ∀ {s}, pyCount old s = 0 → pySplitAll old s = [s] := by
  intro s
  induction s with
  | nil => intro _; rfl
  | cons c rest ih =>
    intro h0
    by_cases hc : old ≠ [] ∧ old.isPrefixOf (c :: rest)
    · rw [pyCount_cons_pos hc] at h0
      omega
    · rw [pyCount_cons_neg hc] at h0
      rw [pySplitAll_cons_neg hc, ih h0]

theorem pySplitAll_len (old : List Char) :
    ∀ n s, s.length ≤ n → (pySplitAll old s).length = pyCount old s + 1 := by
  intro n
  induction n with
  | zero =>
    intro s hl
    have hs : s = [] := List.eq_nil_of_length_eq_zero (Nat.le_zero.mp hl)
    subst hs
    rfl
  | succ m ih =>
    intro s hl
    cases s with
    | nil => rfl
    | cons c rest =>
      by_cases hc : old ≠ [] ∧ old.isPrefixOf (c :: rest)
      · rw [pyCount_cons_pos hc, pySplitAll_cons_pos hc]
        have hlen : ((c :: rest).drop old.length).length ≤ m := by
          have := drop_length_le hc.1 c rest
          simp only [List.length_cons] at hl
          omega
        rw [List.length_cons, ih _ hlen]
        omega
      · rw [pyCount_cons_neg hc, pySplitAll_cons_neg hc]
        have hlen : rest.length ≤ m := by
          simp only [List.length_cons] at hl
          omega
        cases hsp : pySplitAll old rest with
        | nil =>
          have := ih rest hlen
          rw [hsp] at this
          simp at this
        | cons p ps =>
          have := ih rest hlen
          rw [hsp] at this
          simp only [List.length_cons] at this ⊢
          rw [this]

/-! Heading-shaped patterns: `## [...` strings have no internal overlap. -/

/-- Patterns of the shape `##<tail>` with no further `#`: the unreleased
heading, version headings and the heading mark `## [` all qualify. -/
def hashHeaded (l : List Char) : Prop :=
  ∃ t, l = '#' :: '#' :: t ∧ '#' ∉ t ∧ t ≠ []

theorem hashHeaded_drop_not_pre {old : List Char} (hh : hashHeaded old) {j : Nat}
    (hj0 : 0 < j) (hjl : j < old.length) (z : List Char) :
    ¬ old.drop j <+: '#' :: '#' :: z := by
  obtain ⟨t, hold, hmem, htne⟩ := hh
  subst hold
  intro hp
  match j, hj0 with
  | 1, _ =>
    rw [show (('#' :: '#' :: t).drop 1) = '#' :: t from rfl] at hp
    rw [List.cons_prefix_cons] at hp
    cases t with
    | nil => exact htne rfl
    | cons t0 tt =>
      rw [List.cons_prefix_cons] at hp
      exact hmem (by simp [hp.2.1])
  | (k + 2), _ =>
    rw [show (('#' :: '#' :: t).drop (k + 2)) = t.drop k from rfl] at hp
    simp only [List.length_cons] at hjl
    have hkt : k < t.length := by omega
    cases hd : t.drop k with
    | nil =>
      rw [List.drop_eq_nil_iff] at hd
      omega
    | cons d dd =>
      rw [hd, List.cons_prefix_cons] at hp
      have hdm : d ∈ t := List.drop_subset k t (by rw [hd]; simp)
      exact hmem (by rw [hp.1] at hdm; exact hdm)

theorem hashHeaded_no_border {old : List Char} (hh : hashHeaded old) {j : Nat}
    (hj0 : 0 < j) (hjl : j < old.length) (X : List Char) :
    ¬ old <+: old.drop j ++ X := by
  obtain ⟨t, hold, hmem, htne⟩ := hh
  intro hp
  rw [hold] at hp
  match j, hj0 with
  | 1, _ =>
    rw [show (('#' :: '#' :: t).drop 1) = '#' :: t from rfl] at hp
    rw [List.cons_append, List.cons_prefix_cons] at hp
    cases t with
    | nil => exact htne rfl
    | cons t0 tt =>
      rw [List.cons_append, List.cons_prefix_cons] at hp
      exact hmem (by simp [← hp.2.1])
  | (k + 2), _ =>
    rw [show (('#' :: '#' :: t).drop (k + 2)) = t.drop k from rfl] at hp
    rw [hold] at hjl
    simp only [List.length_cons] at hjl
    have hkt : k < t.length := by omega
    cases hd : t.drop k with
    | nil =>
      rw [List.drop_eq_nil_iff] at hd
      omega
    | cons d dd =>
      rw [hd, List.cons_append, List.cons_prefix_cons] at hp
      have hdm : d ∈ t := List.drop_subset k t (by rw [hd]; simp)
      exact hmem (by rw [← hp.1] at hdm; exact hdm)

/-- Splitting an occurrence over an append: either the occurrence lies in one
of the halves, or it crosses the boundary. -/
theorem infix_append_cases {old : List Char} :
    ∀ X Z, old <:+: X ++ Z →
      old <:+: X ∨ old <:+: Z ∨
        ∃ k, 0 < k ∧ k < old.length ∧ old.take k <:+ X ∧ old.drop k <+: Z := by
  intro X
  induction X with
  | nil =>
    intro Z h
    exact Or.inr (Or.inl (by simpa using h))
  | cons c X' ih =>
    intro Z h
    rw [show (c :: X') ++ Z = c :: (X' ++ Z) from rfl, List.infix_cons_iff] at h
    rcases h with h | h
    · rcases prefix_append_cases (show old <+: (c :: X') ++ Z by simpa using h) with h2 | h2
      · exact Or.inl h2.isInfix
      · obtain ⟨hlt, htake, hdrop⟩ := h2
        refine Or.inr (Or.inr ⟨(c :: X').length, by simp, hlt, ?_, hdrop⟩)
        rw [htake]
    · rcases ih Z h with h2 | h2 | h2
      · exact Or.inl (h2.trans ⟨[c], [], by simp⟩)
      · exact Or.inr (Or.inl h2)
      · obtain ⟨k, hk0, hkl, hsuf, hpre⟩ := h2
        exact Or.inr (Or.inr ⟨k, hk0, hkl, hsuf.trans (List.suffix_cons c X'), hpre⟩)

/-- Occurrences of a `hashHeaded` pattern cannot overlap: a scan count of one
pins the position, so any exhibited decomposition is the scan's own. -/
theorem unique_occurrence {old : List Char} (hh : hashHeaded old)
    {s A B : List Char} (h1 : pyCount old s = 1) (hdec : s = A ++ old ++ B) :
    noMatchBefore old A ∧ pyCount old B = 0 := by
  have hne : old ≠ [] := by
    obtain ⟨t, hold, -, -⟩ := hh
    rw [hold]
    simp
  obtain ⟨A', B', hdec', hnm'⟩ := pyCount_first_decomp hne s (by omega)
  have hcnt := pyCount_decomp hne hnm' B'
  rw [← hdec', h1] at hcnt
  have hB' : pyCount old B' = 0 := by omega
  have hp : old <+: s.drop A.length := by
    rw [hdec, List.append_assoc, List.drop_append_eq_append_drop,
      List.drop_of_length_le (le_refl A.length)]
    simp only [Nat.sub_self, List.drop_zero, List.nil_append]
    exact List.prefix_append old B
  have hAA : A = A' := by
    rcases Nat.lt_trichotomy A.length A'.length with hlt | heq | hgt
    · exfalso
      have hsplit : s.drop A.length = A'.drop A.length ++ old ++ B' := by
        rw [hdec', List.append_assoc, List.drop_append_eq_append_drop,
          Nat.sub_eq_zero_of_le (Nat.le_of_lt hlt), List.drop_zero, ← List.append_assoc]
      rw [hsplit] at hp
      have hp2 : old <+: A'.drop A.length ++ old :=
        prefix_of_append_of_length_le (by simpa using hp) (by simp)
      refine hnm' (A'.take A.length) (A'.drop A.length) (List.take_append_drop _ _).symm
        ?_ hp2
      intro hnil
      have hc := congrArg List.length hnil
      simp at hc
      omega
    · have h2 : A ++ (old ++ B) = A' ++ (old ++ B') := by
        rw [← List.append_assoc, ← List.append_assoc, ← hdec, ← hdec']
      exact (List.append_inj h2 heq).1
    · exfalso
      have hj : s.drop A.length = (old ++ B').drop (A.length - A'.length) := by
        rw [hdec', List.append_assoc, List.drop_append_eq_append_drop,
          List.drop_of_length_le (Nat.le_of_lt hgt)]
        simp
      rw [hj] at hp
      rcases Nat.lt_or_ge (A.length - A'.length) old.length with hsm | hbig
      · have hdj : (old ++ B').drop (A.length - A'.length) =
            old.drop (A.length - A'.length) ++ B' := by
          rw [List.drop_append_eq_append_drop,
            Nat.sub_eq_zero_of_le (Nat.le_of_lt hsm), List.drop_zero]
        rw [hdj] at hp
        exact hashHeaded_no_border hh (by omega) hsm B' hp
      · have hdj : (old ++ B').drop (A.length - A'.length) =
            B'.drop (A.length - A'.length - old.length) := by
          rw [List.drop_append_eq_append_drop, List.drop_of_length_le hbig]
          simp
        rw [hdj] at hp
        have hinf : old <:+: B' := by
          refine ⟨B'.take (A.length - A'.length - old.length),
            (B'.drop (A.length - A'.length - old.length)).drop old.length, ?_⟩
          rw [List.append_assoc, ← eq_append_of_pre hp, List.take_append_drop]
        rw [pyCount_zero_iff hne] at hB'
        exact hB' hinf
  subst hAA
  refine ⟨hnm', ?_⟩
  have h2 : A ++ (old ++ B) = A ++ (old ++ B') := by
    rw [← List.append_assoc, ← List.append_assoc, ← hdec, ← hdec']
  have hBB : B = B' := List.append_cancel_left (List.append_cancel_left h2)
  rw [hBB]
  exact hB'

theorem char_class_not_mem {r : List Char} {special : Char}
    (h : ∀ c ∈ r, c.isDigit = true ∨ c = special) {x : Char}
    (hx1 : x.isDigit = false) (hx2 : x ≠ special) : x ∉ r := by
  intro hm
  rcases h x hm with h1 | h1
  · rw [hx1] at h1
    exact absurd h1 (by simp)
  · exact hx2 h1

theorem not_infix_of_noMatchBefore {old A : List Char} (hne : old ≠ [])
    (h : noMatchBefore old A) : ¬ old <:+: A := by
  rintro ⟨X, Y, hxy⟩
  refine h X (old ++ Y) (by rw [← hxy]; simp) ?_ ?_
  · intro hnil
    rw [List.append_eq_nil] at hnil
    exact hne hnil.1
  · have hpp : old <+: old ++ (Y ++ old) := List.prefix_append _ _
    simpa using hpp

theorem noMatchBefore_of_not_infix_hashHeaded {old A : List Char} (hh : hashHeaded old)
    (hni : ¬ old <:+: A) : noMatchBefore old A := by
  have hne : old ≠ [] := by
    obtain ⟨t, hold, -, -⟩ := hh
    rw [hold]
    simp
  intro A1 A2 hA hne2 hp
  rcases prefix_append_cases hp with h2 | h2
  · apply hni
    refine ⟨A1, A2.drop old.length, ?_⟩
    rw [hA, List.append_assoc, ← eq_append_of_pre h2]
  · obtain ⟨hlt, htake, hdrop⟩ := h2
    obtain ⟨t, hold, hmem, htne⟩ := hh
    have hj0 : 0 < A2.length := by
      cases A2 with
      | nil => exact absurd rfl hne2
      | cons _ _ => simp
    refine hashHeaded_drop_not_pre ⟨t, hold, hmem, htne⟩ hj0 hlt t ?_
    rw [← hold]
    exact hdrop

theorem pyReplaceAll_len_ge {old new : List Char} (hlen : old.length ≤ new.length) :
    ∀ n s, s.length ≤ n → s.length ≤ (pyReplaceAll old new s).length := by
  intro n
  induction n with
  | zero =>
    intro s hl
    have hs : s = [] := List.eq_nil_of_length_eq_zero (Nat.le_zero.mp hl)
    subst hs
    simp
  | succ m ih =>
    intro s hl
    cases s with
    | nil => simp
    | cons c rest =>
      by_cases hc : old ≠ [] ∧ old.isPrefixOf (c :: rest)
      · rw [pyReplaceAll_cons_pos new hc]
        have hsub : old.length ≤ (c :: rest).length := by
          have := (isPrefixOf_eq.mp hc.2).length_le
          simpa using this
        have hrec := ih ((c :: rest).drop old.length) (by
          have := drop_length_le hc.1 c rest
          simp only [List.length_cons] at hl
          omega)
        simp only [List.length_append, List.length_drop, List.length_cons] at hrec hsub ⊢
        omega
      · rw [pyReplaceAll_cons_neg new hc]
        have hrec := ih rest (by simp only [List.length_cons] at hl; omega)
        simp only [List.length_cons]
        omega

theorem hashHeaded_unreleased : hashHeaded "## [Unreleased]".data :=
  ⟨" [Unreleased]".data, by decide, by decide, by decide⟩

theorem hashHeaded_replacement {v d : List Char} (hv : '#' ∉ v) (hd : '#' ∉ d) :
    hashHeaded ("## [".data ++ v ++ "] - ".data ++ d) := by
  refine ⟨' ' :: '[' :: (v ++ "] - ".data ++ d), by simp, ?_, by simp⟩
  intro hm
  rcases List.mem_cons.mp hm with h1 | h1
  · exact absurd h1 (by decide)
  · rcases List.mem_cons.mp h1 with h2 | h2
    · exact absurd h2 (by decide)
    · rcases List.mem_append.mp h2 with h3 | h3
      · rcases List.mem_append.mp h3 with h4 | h4
        · exact hv h4
        · exact absurd h4 (by decide)
      · exact hd h3

theorem mem_of_infix_mem {l m : List Char} {x : Char} (h : l <:+: m) (hx : x ∈ l) : x ∈ m :=
  h.subset hx

/-- The stamped heading `## [<v>] - <date>` contains no occurrence of the
unreleased heading, and inserting it between heading-free halves creates
none. -/
theorem no_H_in_replaced {v d A B : List Char}
    (hv : ∀ c ∈ v, c.isDigit = true ∨ c = '.')
    (hd : ∀ c ∈ d, c.isDigit = true ∨ c = '-') (hdne : d ≠ [])
    (hA : ¬ "## [Unreleased]".data <:+: A) (hB : ¬ "## [Unreleased]".data <:+: B) :
    ¬ "## [Unreleased]".data <:+: A ++ ("## [".data ++ v ++ "] - ".data ++ d) ++ B := by
  have hUv : 'U' ∉ v := char_class_not_mem hv (by decide) (by decide)
  have hUd : 'U' ∉ d := char_class_not_mem hd (by decide) (by decide)
  have hUR : 'U' ∉ "## [".data ++ v ++ "] - ".data ++ d := by
    intro hm
    rcases List.mem_append.mp hm with h1 | h1
    · rcases List.mem_append.mp h1 with h2 | h2
      · rcases List.mem_append.mp h2 with h3 | h3
        · exact absurd h3 (by decide)
        · exact hUv h3
      · exact absurd h2 (by decide)
    · exact hUd h1
  have hRcons : ("## [".data ++ v ++ "] - ".data ++ d) ++ B =
      '#' :: '#' :: (' ' :: '[' :: (v ++ "] - ".data ++ d ++ B)) := by simp
  intro hinf
  rw [List.append_assoc] at hinf
  rcases infix_append_cases A (("## [".data ++ v ++ "] - ".data ++ d) ++ B) hinf with
    h | h | ⟨k, hk0, hkl, hsuf, hpre⟩
  · exact hA h
  · rcases infix_append_cases ("## [".data ++ v ++ "] - ".data ++ d) B h with
      h2 | h2 | ⟨k, hk0, hkl, hsuf, hpre⟩
    · exact hUR (mem_of_infix_mem h2 (by decide))
    · exact hB h2
    · rcases Nat.lt_or_ge k 5 with hk5 | hk5
      · have hlast : ("## [Unreleased]".data.take k).getLast? =
            ("## [".data ++ v ++ "] - ".data ++ d).getLast? := by
          obtain ⟨p, hp⟩ := hsuf
          rw [← hp]
          exact (List.getLast?_append_of_ne_nil p (by
            intro hnil
            have hc := congrArg List.length hnil
            simp at hc
            omega)).symm
        have hdlast : ("## [".data ++ v ++ "] - ".data ++ d).getLast? = d.getLast? := by
          rw [show "## [".data ++ v ++ "] - ".data ++ d =
            ("## [".data ++ v ++ "] - ".data) ++ d by simp]
          exact List.getLast?_append_of_ne_nil _ hdne
        rw [hdlast] at hlast
        have hmemd : ∀ x, d.getLast? = some x → x ∈ d := by
          intro x hx
          cases d with
          | nil => simp at hx
          | cons c0 d0 =>
            rw [List.getLast?_eq_getLast _ (by simp)] at hx
            simp only [Option.some.injEq] at hx
            rw [← hx]
            exact List.getLast_mem _
        interval_cases k
        · have := hmemd '#' (by rw [← hlast]; decide)
          rcases hd '#' this with hcc | hcc
          · exact absurd hcc (by decide)
          · exact absurd hcc (by decide)
        · have := hmemd '#' (by rw [← hlast]; decide)
          rcases hd '#' this with hcc | hcc
          · exact absurd hcc (by decide)
          · exact absurd hcc (by decide)
        · have := hmemd ' ' (by rw [← hlast]; decide)
          rcases hd ' ' this with hcc | hcc
          · exact absurd hcc (by decide)
          · exact absurd hcc (by decide)
        · have := hmemd '[' (by rw [← hlast]; decide)
          rcases hd '[' this with hcc | hcc
          · exact absurd hcc (by decide)
          · exact absurd hcc (by decide)
      · have hU5 : 'U' ∈ "## [Unreleased]".data.take k := by
          have hpre5 : ("## [Unreleased]".data.take 5) <+: ("## [Unreleased]".data.take k) := by
            exact List.take_prefix_take_left _ hk5
          exact hpre5.subset (by decide)
        exact hUR (hsuf.subset hU5)
  · rw [hRcons] at hpre
    exact hashHeaded_drop_not_pre hashHeaded_unreleased hk0 hkl _ hpre

/-- Success path of `update_changelog` relative to the first-occurrence
decomposition of the unreleased heading. -/
theorem update_changelog_eval {v d A B : List Char}
    (hv : ∀ c ∈ v, c.isDigit = true ∨ c = '.')
    (hd : ∀ c ∈ d, c.isDigit = true ∨ c = '-') (hdlen : d.length = 10)
    (hnmA : noMatchBefore "## [Unreleased]".data A)
    (hB0 : pyCount "## [Unreleased]".data B = 0) :
    update_changelog v d (A ++ "## [Unreleased]".data ++ B) =
      .ok (pyReplaceAll ("## [".data ++ v ++ "] - ".data ++ d)
        ("## [Unreleased]".data ++ "\n\n".data ++ ("## [".data ++ v ++ "] - ".data ++ d))
        (A ++ ("## [".data ++ v ++ "] - ".data ++ d) ++ B)) := by
  have hne : "## [Unreleased]".data ≠ [] := by decide
  have hdne : d ≠ [] := by
    intro hnil
    rw [hnil] at hdlen
    simp at hdlen
  have hrep := pyReplaceOne_decomp hne ("## [".data ++ v ++ "] - ".data ++ d) hnmA B
  have hcne : A ++ "## [Unreleased]".data ++ B ≠
      A ++ ("## [".data ++ v ++ "] - ".data ++ d) ++ B := by
    intro hcc
    have hl := congrArg List.length hcc
    simp at hl
    omega
  have hc0 : pyCount "## [Unreleased]".data
      (A ++ ("## [".data ++ v ++ "] - ".data ++ d) ++ B) = 0 := by
    rw [pyCount_zero_iff hne]
    exact no_H_in_replaced hv hd hdne (not_infix_of_noMatchBefore hne hnmA)
      ((pyCount_zero_iff hne B).mp hB0)
  rw [update_changelog]
  simp only
  rw [hrep, if_neg hcne, if_neg (not_ne_iff.mpr (pyReplaceAll_zero hc0).symm)]

/-- C5.  `update_changelog`'s text transformation fails with the
no-unreleased-section error when the literal heading `## [Unreleased]` occurs
zero times, fails with the multiple-sections error when it occurs two or more
times, and succeeds when it occurs exactly once (version and date shaped as
produced by the bump and the ISO date stamp). -/
theorem claim_C5 (v d content : List Char)
    (hv : ∀ c ∈ v, c.isDigit = true ∨ c = '.')
    (hd : ∀ c ∈ d, c.isDigit = true ∨ c = '-') (hdlen : d.length = 10) :
    (pyCount "## [Unreleased]".data content = 0 →
      update_changelog v d content =
        .error (.errorExit "no unreleased version section found")) ∧
    (2 ≤ pyCount "## [Unreleased]".data content →
      update_changelog v d content =
        .error (.errorExit "multiple unreleased version sections found")) ∧
    (pyCount "## [Unreleased]".data content = 1 →
      ∃ out, update_changelog v d content = .ok out) := by
  have hne : "## [Unreleased]".data ≠ [] := by decide
  refine ⟨?_, ?_, ?_⟩
  · intro h0
    rw [update_changelog]
    simp only
    rw [pyReplaceOne_zero h0, if_pos rfl]
  · intro h2
    obtain ⟨A, B, hdec, hnmA⟩ := pyCount_first_decomp hne content (by omega)
    have hcnt := pyCount_decomp hne hnmA B
    rw [← hdec] at hcnt
    have hB1 : pyCount "## [Unreleased]".data B ≠ 0 := by omega
    subst hdec
    have hrep := pyReplaceOne_decomp hne ("## [".data ++ v ++ "] - ".data ++ d) hnmA B
    have hcne : A ++ "## [Unreleased]".data ++ B ≠
        A ++ ("## [".data ++ v ++ "] - ".data ++ d) ++ B := by
      intro hcc
      have hl := congrArg List.length hcc
      simp at hl
      omega
    have hiB : "## [Unreleased]".data <:+: B := by
      by_contra hn
      exact hB1 ((pyCount_zero_iff hne B).mpr hn)
    have hiNew : "## [Unreleased]".data <:+:
        A ++ ("## [".data ++ v ++ "] - ".data ++ d) ++ B :=
      hiB.trans ⟨A ++ ("## [".data ++ v ++ "] - ".data ++ d), [], by simp⟩
    have hcnt2 : pyCount "## [Unreleased]".data
        (A ++ ("## [".data ++ v ++ "] - ".data ++ d) ++ B) ≠ 0 := by
      intro h0
      exact ((pyCount_zero_iff hne _).mp h0) hiNew
    obtain ⟨A2, B2, hdec2, hnm2⟩ := pyCount_first_decomp hne _ hcnt2
    have h15 : ("## [Unreleased]".data).length = 15 := by decide
    have h4a : ("## [".data).length = 4 := by decide
    have h4b : ("] - ".data).length = 4 := by decide
    have hner : A ++ ("## [".data ++ v ++ "] - ".data ++ d) ++ B ≠
        pyReplaceAll "## [Unreleased]".data ("## [".data ++ v ++ "] - ".data ++ d)
          (A ++ ("## [".data ++ v ++ "] - ".data ++ d) ++ B) := by
      intro hcc
      rw [hdec2] at hcc
      rw [pyReplaceAll_decomp hne ("## [".data ++ v ++ "] - ".data ++ d) hnm2 B2] at hcc
      have hl := congrArg List.length hcc
      have hge := @pyReplaceAll_len_ge "## [Unreleased]".data
        ("## [".data ++ v ++ "] - ".data ++ d)
        (by simp only [List.length_append, h15, h4a, h4b, hdlen]; omega)
        B2.length B2 (le_refl _)
      simp only [List.length_append, h15, h4a, h4b, hdlen] at hl hge
      omega
    rw [update_changelog]
    simp only
    rw [hrep, if_neg hcne, if_pos hner]
  · intro h1
    obtain ⟨A, B, hdec, hnmA⟩ := pyCount_first_decomp hne content (by omega)
    have hcnt := pyCount_decomp hne hnmA B
    rw [← hdec] at hcnt
    have hB0 : pyCount "## [Unreleased]".data B = 0 := by omega
    subst hdec
    exact ⟨_, update_changelog_eval hv hd hdlen hnmA hB0⟩

/-- Witness for C5 on a changelog with exactly one unreleased heading. -/
theorem claim_C5_witness :
    ∃ out, update_changelog "1.2.0".data "2026-10-12".data
      "# L\n\n## [Unreleased]\n\nFixed.\n".data = .ok out :=
  (claim_C5 "1.2.0".data "2026-10-12".data "# L\n\n## [Unreleased]\n\nFixed.\n".data
    (by decide) (by decide) (by decide)).2.2 (by decide)

/-- C6 (as amended).  On a changelog with exactly one unreleased heading whose
stamped replacement `## [<v>] - <date>` occurs nowhere in the original
document, `update_changelog` produces, in place of the heading: the empty
unreleased heading, one blank line, the new dated heading, then the original
body unchanged; every byte outside the replaced heading and the reinserted
text is preserved verbatim. -/
theorem claim_C6 (v d A B : List Char)
    (hv : ∀ c ∈ v, c.isDigit = true ∨ c = '.')
    (hd : ∀ c ∈ d, c.isDigit = true ∨ c = '-') (hdlen : d.length = 10)
    (h1 : pyCount "## [Unreleased]".data (A ++ "## [Unreleased]".data ++ B) = 1)
    (hR : ¬ ("## [".data ++ v ++ "] - ".data ++ d) <:+:
      (A ++ "## [Unreleased]".data ++ B)) :
    update_changelog v d (A ++ "## [Unreleased]".data ++ B) =
      .ok (A ++ ("## [Unreleased]".data ++ "\n\n".data ++
        ("## [".data ++ v ++ "] - ".data ++ d)) ++ B) := by
  have hne : "## [Unreleased]".data ≠ [] := by decide
  have hvh : '#' ∉ v := char_class_not_mem hv (by decide) (by decide)
  have hdh : '#' ∉ d := char_class_not_mem hd (by decide) (by decide)
  have hRne : ("## [".data ++ v ++ "] - ".data ++ d) ≠ [] := by simp
  obtain ⟨hnmA, hB0⟩ := unique_occurrence hashHeaded_unreleased h1 rfl
  rw [update_changelog_eval hv hd hdlen hnmA hB0]
  have hRA : ¬ ("## [".data ++ v ++ "] - ".data ++ d) <:+: A := by
    intro hi
    exact hR (hi.trans ⟨[], "## [Unreleased]".data ++ B, by simp⟩)
  have hRB : ¬ ("## [".data ++ v ++ "] - ".data ++ d) <:+: B := by
    intro hi
    exact hR (hi.trans ⟨A ++ "## [Unreleased]".data, [], by simp⟩)
  have hnmRA : noMatchBefore ("## [".data ++ v ++ "] - ".data ++ d) A :=
    noMatchBefore_of_not_infix_hashHeaded (hashHeaded_replacement hvh hdh) hRA
  rw [pyReplaceAll_decomp hRne
    ("## [Unreleased]".data ++ "\n\n".data ++ ("## [".data ++ v ++ "] - ".data ++ d))
    hnmRA B]
  rw [pyReplaceAll_zero ((pyCount_zero_iff hRne B).mpr hRB)]

/-- C6 counterexample: stamping a version-and-date heading that already occurs
verbatim in the document rewrites that pre-existing occurrence too — the final
unbounded `str.replace` inserts a second unreleased heading above the old
section, so bytes outside the single replaced heading are not preserved. -/
theorem claim_C6_counterexample :
    update_changelog "1.2.3".data "2024-01-01".data
      "## [1.2.3] - 2024-01-01\nold\n## [Unreleased]\nnew".data =
      .ok ("## [Unreleased]\n\n## [1.2.3] - 2024-01-01\nold\n## [Unreleased]\n\n## [1.2.3] - 2024-01-01\nnew".data) ∧
    "## [Unreleased]\n\n## [1.2.3] - 2024-01-01\nold\n## [Unreleased]\n\n## [1.2.3] - 2024-01-01\nnew".data ≠
      "## [1.2.3] - 2024-01-01\nold\n".data ++
        ("## [Unreleased]".data ++ "\n\n".data ++
          ("## [".data ++ "1.2.3".data ++ "] - ".data ++ "2024-01-01".data)) ++
        "\nnew".data := by
  constructor <;> decide

/-- Witness for C6 at a concrete changelog. -/
theorem claim_C6_witness :
    update_changelog "1.2.0".data "2026-10-12".data
      ("# L\n\n".data ++ "## [Unreleased]".data ++ "\n\nFixed.\n".data) =
      .ok ("# L\n\n".data ++ ("## [Unreleased]".data ++ "\n\n".data ++
        ("## [".data ++ "1.2.0".data ++ "] - ".data ++ "2026-10-12".data)) ++
        "\n\nFixed.\n".data) :=
  claim_C6 "1.2.0".data "2026-10-12".data "# L\n\n".data "\n\nFixed.\n".data
    (by decide) (by decide) (by decide) (by decide) (by decide)

/-! Extracting a version section body. -/

theorem pySplit1_zero {sep : List Char} :
    ∀ {s}, pyCount sep s = 0 → pySplit1 sep s = [s] := by
  intro s
  induction s with
  | nil => intro _; rfl
  | cons c rest ih =>
    intro h0
    by_cases hc : sep ≠ [] ∧ sep.isPrefixOf (c :: rest)
    · rw [pyCount_cons_pos hc] at h0
      omega
    · rw [pyCount_cons_neg hc] at h0
      rw [pySplit1, if_neg hc, ih h0]

theorem hashHeaded_version_line {v : List Char} (hv : '#' ∉ v) :
    hashHeaded ("## [".data ++ v ++ "]".data) := by
  refine ⟨' ' :: '[' :: (v ++ "]".data), by simp, ?_, by simp⟩
  intro hm
  rcases List.mem_cons.mp hm with h1 | h1
  · exact absurd h1 (by decide)
  · rcases List.mem_cons.mp h1 with h2 | h2
    · exact absurd h2 (by decide)
    · rcases List.mem_append.mp h2 with h3 | h3
      · exact hv h3
      · exact absurd h3 (by decide)

theorem hashHeaded_mark : hashHeaded "## [".data :=
  ⟨" [".data, by decide, by decide, by decide⟩

/-- Evaluation of `get_changelog_body` at a unique version heading: the part
before the next `## [` (or the end of the document), after the heading line's
newline, is returned stripped. -/
theorem gcb_eval (v A T Bdy R : List Char) (hv : '#' ∉ v) (hT : '\n' ∉ T)
    (hpre : pyCount "## [".data (T ++ '\n' :: Bdy) = 0)
    (hR : R = [] ∨ ∃ R2, R = "## [".data ++ R2)
    (h1 : pyCount ("## [".data ++ v ++ "]".data)
      (A ++ ("## [".data ++ v ++ "]".data) ++ (T ++ '\n' :: Bdy ++ R)) = 1) :
    get_changelog_body v (A ++ ("## [".data ++ v ++ "]".data) ++ (T ++ '\n' :: Bdy ++ R)) =
      .ok (pyStrip Bdy) := by
  have hvl : ("## [".data ++ v ++ "]".data) ≠ [] := by simp
  obtain ⟨hnmA, hB0⟩ := unique_occurrence (hashHeaded_version_line hv) h1 rfl
  have hsplit : pySplitAll ("## [".data ++ v ++ "]".data)
      (A ++ ("## [".data ++ v ++ "]".data) ++ (T ++ '\n' :: Bdy ++ R)) =
      [A, T ++ '\n' :: Bdy ++ R] := by
    rw [pySplitAll_decomp hvl hnmA, pySplitAll_zero hB0]
  have hbody : pySplit1 "## [".data (T ++ '\n' :: Bdy ++ R) =
      (T ++ '\n' :: Bdy) :: (match R with | [] => ([] : List (List Char)) | _ => [R.drop 4]) := by
    rcases hR with rfl | ⟨R2, rfl⟩
    · simp only [List.append_nil]
      rw [pySplit1_zero hpre]
    · have hnm : noMatchBefore "## [".data (T ++ '\n' :: Bdy) :=
        noMatchBefore_of_not_infix_hashHeaded hashHeaded_mark
          ((pyCount_zero_iff (by decide) _).mp hpre)
      have hx := @pySplit1_reconstruct "## [".data (T ++ '\n' :: Bdy)
        R2 (by decide) hnm
      rw [show T ++ '\n' :: Bdy ++ ("## [".data ++ R2) =
        (T ++ '\n' :: Bdy) ++ "## [".data ++ R2 by simp]
      rw [hx]
      rfl
  rw [get_changelog_body]
  simp only
  rw [hsplit]
  rw [if_neg (by simp)]
  rw [if_neg (by simp)]
  simp only [List.getD_cons_succ, List.getD_cons_zero]
  rw [hbody]
  simp only [List.getD_cons_zero]
  rw [pySplit1_char_recons hT]
  rfl

/-- C7.  For a changelog containing exactly one occurrence of the heading
`## [<version>]`, followed (after the heading line's newline) by a body that
runs up to the next `## [` mark or the end of the document,
`get_changelog_body` returns exactly that body with surrounding whitespace
stripped; in particular, on the spec's example document with version `1.2.0`
it returns `Fixed bug.`. -/
theorem claim_C7 (v A T Bdy R : List Char) (hv : '#' ∉ v) (hT : '\n' ∉ T)
    (hpre : pyCount "## [".data (T ++ '\n' :: Bdy) = 0)
    (hR : R = [] ∨ ∃ R2, R = "## [".data ++ R2)
    (h1 : pyCount ("## [".data ++ v ++ "]".data)
      (A ++ ("## [".data ++ v ++ "]".data) ++ (T ++ '\n' :: Bdy ++ R)) = 1) :
    get_changelog_body v (A ++ ("## [".data ++ v ++ "]".data) ++ (T ++ '\n' :: Bdy ++ R)) =
      .ok (pyStrip Bdy) ∧
    get_changelog_body "1.2.0".data
      "## [Unreleased]\n\n## [1.2.0] - 2024-01-01\nFixed bug.\n\n## [1.1.0] - 2023-01-01\nOlder.".data =
      .ok "Fixed bug.".data :=
  ⟨gcb_eval v A T Bdy R hv hT hpre hR h1, by decide⟩

/-- Witness for C7 on the spec's example document. -/
theorem claim_C7_witness :
    get_changelog_body "1.2.0".data
      ("## [Unreleased]\n\n".data ++ ("## [".data ++ "1.2.0".data ++ "]".data) ++
        (" - 2024-01-01".data ++ '\n' :: "Fixed bug.\n\n".data ++
          ("## [".data ++ "1.1.0] - 2023-01-01\nOlder.".data))) =
      .ok (pyStrip "Fixed bug.\n\n".data) :=
  (claim_C7 "1.2.0".data "## [Unreleased]\n\n".data " - 2024-01-01".data
    "Fixed bug.\n\n".data ("## [".data ++ "1.1.0] - 2023-01-01\nOlder.".data)
    (by decide) (by decide) (by decide)
    (Or.inr ⟨"1.1.0] - 2023-01-01\nOlder.".data, rfl⟩) (by decide)).1

theorem gcb_zero {v content : List Char}
    (h0 : pyCount ("## [".data ++ v ++ "]".data) content = 0) :
    get_changelog_body v content =
      .error (.errorExit "version changelog section found") := by
  rw [get_changelog_body]
  simp only
  rw [pySplitAll_zero h0, if_pos (by simp)]

theorem gcb_multi {v content : List Char}
    (h2 : 2 ≤ pyCount ("## [".data ++ v ++ "]".data) content) :
    get_changelog_body v content =
      .error (.errorExit "multiple version changelog sections found") := by
  have hlen := pySplitAll_len ("## [".data ++ v ++ "]".data) content.length content (le_refl _)
  rw [get_changelog_body]
  simp only
  rw [if_neg (by rw [hlen]; omega), if_pos (by rw [hlen]; omega)]

theorem gcb_nolb (v A T R : List Char) (hv : '#' ∉ v) (hT : '\n' ∉ T)
    (hpre : pyCount "## [".data T = 0)
    (hR : R = [] ∨ ∃ R2, R = "## [".data ++ R2)
    (h1 : pyCount ("## [".data ++ v ++ "]".data)
      (A ++ ("## [".data ++ v ++ "]".data) ++ (T ++ R)) = 1) :
    get_changelog_body v (A ++ ("## [".data ++ v ++ "]".data) ++ (T ++ R)) =
      .error (.errorExit "invalid changelog format") := by
  have hvl : ("## [".data ++ v ++ "]".data) ≠ [] := by simp
  obtain ⟨hnmA, hB0⟩ := unique_occurrence (hashHeaded_version_line hv) h1 rfl
  have hsplit : pySplitAll ("## [".data ++ v ++ "]".data)
      (A ++ ("## [".data ++ v ++ "]".data) ++ (T ++ R)) = [A, T ++ R] := by
    rw [pySplitAll_decomp hvl hnmA, pySplitAll_zero hB0]
  have hbody : pySplit1 "## [".data (T ++ R) =
      T :: (match R with | [] => ([] : List (List Char)) | _ => [R.drop 4]) := by
    rcases hR with rfl | ⟨R2, rfl⟩
    · simp only [List.append_nil]
      rw [pySplit1_zero hpre]
    · have hnm : noMatchBefore "## [".data T :=
        noMatchBefore_of_not_infix_hashHeaded hashHeaded_mark
          ((pyCount_zero_iff (by decide) _).mp hpre)
      have hx := @pySplit1_reconstruct "## [".data T R2
        (by decide) hnm
      rw [show T ++ ("## [".data ++ R2) = T ++ "## [".data ++ R2 by simp]
      rw [hx]
      rfl
  have hTnl : pySplit1 "\n".data T = [T] := by
    refine pySplit1_zero ((pyCount_zero_iff (by simp) T).mpr ?_)
    intro hi
    exact hT (hi.subset (by simp))
  rw [get_changelog_body]
  simp only
  rw [hsplit, if_neg (by simp), if_neg (by simp)]
  simp only [List.getD_cons_succ, List.getD_cons_zero]
  rw [hbody]
  simp only [List.getD_cons_zero]
  rw [hTnl]
  rfl

/-- C8.  `get_changelog_body` fails with the section-not-found error when the
heading `## [<version>]` occurs zero times, with the multiple-sections error
when it occurs two or more times, and, at exactly one occurrence, fails with
the invalid-format error precisely when the text after the heading up to the
next `## [` mark (or the end of the document) contains no line break —
otherwise it succeeds. -/
theorem claim_C8 (v : List Char) (hv : '#' ∉ v) :
    (∀ content, pyCount ("## [".data ++ v ++ "]".data) content = 0 →
      get_changelog_body v content =
        .error (.errorExit "version changelog section found")) ∧
    (∀ content, 2 ≤ pyCount ("## [".data ++ v ++ "]".data) content →
      get_changelog_body v content =
        .error (.errorExit "multiple version changelog sections found")) ∧
    (∀ A T R, '\n' ∉ T → pyCount "## [".data T = 0 →
      (R = [] ∨ ∃ R2, R = "## [".data ++ R2) →
      pyCount ("## [".data ++ v ++ "]".data)
        (A ++ ("## [".data ++ v ++ "]".data) ++ (T ++ R)) = 1 →
      get_changelog_body v (A ++ ("## [".data ++ v ++ "]".data) ++ (T ++ R)) =
        .error (.errorExit "invalid changelog format")) ∧
    (∀ A T Bdy R, '\n' ∉ T → pyCount "## [".data (T ++ '\n' :: Bdy) = 0 →
      (R = [] ∨ ∃ R2, R = "## [".data ++ R2) →
      pyCount ("## [".data ++ v ++ "]".data)
        (A ++ ("## [".data ++ v ++ "]".data) ++ (T ++ '\n' :: Bdy ++ R)) = 1 →
      get_changelog_body v (A ++ ("## [".data ++ v ++ "]".data) ++ (T ++ '\n' :: Bdy ++ R)) =
        .ok (pyStrip Bdy)) :=
  ⟨fun _ h0 => gcb_zero h0, fun _ h2 => gcb_multi h2,
    fun A T R hT hpre hR h1 => gcb_nolb v A T R hv hT hpre hR h1,
    fun A T Bdy R hT hpre hR h1 => gcb_eval v A T Bdy R hv hT hpre hR h1⟩

/-- Witness for C8: a heading whose line never ends is an invalid-format
error. -/
theorem claim_C8_witness :
    get_changelog_body "2.0.0".data
      ("intro\n".data ++ ("## [".data ++ "2.0.0".data ++ "]".data) ++
        (" - no newline after this".data ++ [])) =
      .error (.errorExit "invalid changelog format") :=
  (claim_C8 "2.0.0".data (by decide)).2.2.1 "intro\n".data " - no newline after this".data []
    (by decide) (by decide) (Or.inl rfl) (by decide)
